import Mathlib

/-!
# Verification of the ReconMapper crawler core (`mapcrawller.py`)

This file is a shallow embedding, in Lean 4, of the parts of
`mapcrawller.py` (and of the CPython 3.11 `urllib.parse` standard-library
functions it calls) that the specification's claims are about, together
with theorems settling each claim.

Python strings are modelled as `List Char` (Python `str` is a sequence of
Unicode code points, and Python `len` counts code points).  Modelling
conventions, noted where they apply:

* `str.strip()` / whitespace: Python's Unicode whitespace set is encoded
  explicitly in `isPySpace`.
* `str.lower()` / `str.upper()` are modelled ASCII-only (`Char.toLower` /
  `Char.toUpper`); the inputs the crawler handles are ASCII.
* `urllib.parse._checknetloc` only raises for non-ASCII netlocs containing
  characters whose NFKC normalization expands to a URL delimiter (e.g.
  U+2100).  NFKC tables are not modelled; the check is modelled as passing
  (it passes for every ASCII netloc, which the crawler's URLs are).
* Python `set` iteration order is unspecified; where the source iterates
  over a set we fix first-insertion order.  Sets are modelled as
  duplicate-free lists, with membership the only operation used.
* `datetime.now()` values are threaded in as parameters (`tsIso`, `tsLog`).
-/

set_option maxHeartbeats 1000000

namespace ReconMapper

/-- Python strings: sequences of Unicode code points. -/
abbrev PStr := List Char

/-- Literal helper: a Lean string literal as a Python string. -/
def pstr (s : String) : PStr := s.data

/-- Python `str.isspace` / the default `str.strip()` character set
(`Py_UNICODE_ISSPACE`). -/
def isPySpace (c : Char) : Bool :=
  (0x9 ≤ c.toNat ∧ c.toNat ≤ 0xD) ∨ (0x1C ≤ c.toNat ∧ c.toNat ≤ 0x1F) ∨
  c.toNat = 0x20 ∨ c.toNat = 0x85 ∨ c.toNat = 0xA0 ∨ c.toNat = 0x1680 ∨
  (0x2000 ≤ c.toNat ∧ c.toNat ≤ 0x200A) ∨ c.toNat = 0x2028 ∨
  c.toNat = 0x2029 ∨ c.toNat = 0x202F ∨ c.toNat = 0x205F ∨ c.toNat = 0x3000

/-- Python `str.strip()` (no argument): drop whitespace from both ends. -/
def pyStrip (s : PStr) : PStr :=
  ((s.dropWhile isPySpace).reverse.dropWhile isPySpace).reverse

/-- ASCII lowercasing, as applied by the source to hosts and schemes. -/
def pyLower (s : PStr) : PStr := s.map Char.toLower

/-- ASCII uppercasing (`str.upper()` in the source's log line). -/
def pyUpper (s : PStr) : PStr := s.map Char.toUpper

/-- Python `a.startswith(p)`. -/
def startsWith (s p : PStr) : Bool := s.take p.length = p

/-- Python `a.endswith(p)`. -/
def endsWith (s p : PStr) : Bool := s.drop (s.length - p.length) = p

/-- Python `s.split(t, 1)` for a single-character separator that is known
to occur: the part before the first `t` and the part after it. -/
def splitFirstOn (t : Char) (s : PStr) : PStr × PStr :=
  (s.takeWhile (· ≠ t), (s.dropWhile (· ≠ t)).drop 1)

/-- Python `s.split(t)` for a single-character separator (all pieces,
empty pieces included). -/
def splitAll (t : Char) : PStr → List PStr
  | [] => [[]]
  | c :: rest =>
    if c = t then [] :: splitAll t rest
    else
      match splitAll t rest with
      | [] => [[c]]
      | p :: ps => (c :: p) :: ps

/-- `'/'.join(l)` style joining with a single-character separator. -/
def joinWith (t : Char) : List PStr → PStr
  | [] => []
  | [p] => p
  | p :: ps => p ++ t :: joinWith t ps

/-- Python `s.split("#")[0]`: everything before the first `'#'`. -/
def splitHash (s : PStr) : PStr := s.takeWhile (· ≠ '#')

/-! ## Model of CPython 3.11 `urllib.parse` (the parts the source calls) -/

/-- `urllib.parse._UNSAFE_URL_BYTES_TO_REMOVE`: tab, CR and LF are removed
from the URL (and the default scheme) before splitting. -/
def removeUnsafe (s : PStr) : PStr :=
  s.filter fun c => ¬(c = '\t' ∨ c = '\r' ∨ c = '\n')

/-- `urllib.parse.scheme_chars`: ASCII letters, digits, `+`, `-`, `.`
(code points, for arithmetic reasoning). -/
def isSchemeChar (c : Char) : Bool :=
  (97 ≤ c.toNat ∧ c.toNat ≤ 122) ∨ (65 ≤ c.toNat ∧ c.toNat ≤ 90) ∨
  (48 ≤ c.toNat ∧ c.toNat ≤ 57) ∨ c.toNat = 43 ∨ c.toNat = 45 ∨ c.toNat = 46

/-- `url[0].isascii() and url[0].isalpha()`: an ASCII letter. -/
def isAsciiAlpha (c : Char) : Bool :=
  (97 ≤ c.toNat ∧ c.toNat ≤ 122) ∨ (65 ≤ c.toNat ∧ c.toNat ≤ 90)

/-- The scheme-recognition step of `urlsplit`: if the URL has a `':'` at a
positive position and everything before the first `':'` is a valid scheme
beginning with an ASCII letter, split it off (lowercased); otherwise the
default scheme applies. -/
def headAsciiAlpha : PStr → Bool
  | [] => false
  | c :: _ => isAsciiAlpha c

/-- The first-colon split of `urlsplit` (see `headAsciiAlpha`). -/
def schemeSplit (url dflt : PStr) : PStr × PStr :=
  if ':' ∈ url then
    let pre := url.takeWhile (· ≠ ':')
    let rest := (url.dropWhile (· ≠ ':')).drop 1
    if pre ≠ [] ∧ headAsciiAlpha pre ∧ pre.all isSchemeChar then
      (pyLower pre, rest)
    else (dflt, url)
  else (dflt, url)

/-- A character ends the netloc in `_splitnetloc` (`'/'`, `'?'`, `'#'`). -/
def notNetlocDelim (c : Char) : Bool := ¬(c = '/' ∨ c = '?' ∨ c = '#')

/-- Result of `urlsplit`. -/
structure SplitRes where
  scheme : PStr
  netloc : PStr
  path : PStr
  query : PStr
  fragment : PStr
deriving DecidableEq, Repr

/-- The fragment and query splitting tail of `urlsplit` (run after the
scheme and netloc have been removed). -/
def fragQuerySplit (scheme netloc url : PStr) : SplitRes :=
  let fr := if '#' ∈ url then splitFirstOn '#' url else (url, [])
  let qu := if '?' ∈ fr.1 then splitFirstOn '?' fr.1 else (fr.1, [])
  ⟨scheme, netloc, qu.1, qu.2, fr.2⟩

/-- `urllib.parse.urlsplit(url, scheme=dflt, allow_fragments=True)`.
`none` models the `ValueError` raised on a netloc containing `'['`
without `']'` or vice versa.  (`_checknetloc` is modelled as passing;
see the header comment.) -/
def urlsplitD (url0 dflt0 : PStr) : Option SplitRes :=
  let url1 := removeUnsafe url0
  let dflt := removeUnsafe dflt0
  let sr := schemeSplit url1 dflt
  let scheme := sr.1
  let url2 := sr.2
  if url2.take 2 = pstr "//" then
    let netloc := (url2.drop 2).takeWhile notNetlocDelim
    let rest := (url2.drop 2).dropWhile notNetlocDelim
    if ('[' ∈ netloc ∧ ']' ∉ netloc) ∨ (']' ∈ netloc ∧ '[' ∉ netloc) then
      none
    else some (fragQuerySplit scheme netloc rest)
  else some (fragQuerySplit scheme [] url2)

/-- `urllib.parse.uses_params`. -/
def usesParams : List PStr :=
  [pstr "", pstr "ftp", pstr "hdl", pstr "prospero", pstr "http",
   pstr "imap", pstr "https", pstr "shttp", pstr "rtsp", pstr "rtspu",
   pstr "sip", pstr "sips", pstr "mms", pstr "sftp", pstr "tel"]

/-- `urllib.parse.uses_relative`. -/
def usesRelative : List PStr :=
  [pstr "", pstr "ftp", pstr "http", pstr "gopher", pstr "nntp",
   pstr "imap", pstr "wais", pstr "file", pstr "https", pstr "shttp",
   pstr "mms", pstr "prospero", pstr "rtsp", pstr "rtspu", pstr "sftp",
   pstr "svn", pstr "svn+ssh", pstr "ws", pstr "wss"]

/-- `urllib.parse.uses_netloc`. -/
def usesNetloc : List PStr :=
  [pstr "", pstr "ftp", pstr "http", pstr "gopher", pstr "nntp",
   pstr "telnet", pstr "imap", pstr "wais", pstr "file", pstr "mms",
   pstr "https", pstr "shttp", pstr "snews", pstr "prospero", pstr "rtsp",
   pstr "rtspu", pstr "rsync", pstr "svn", pstr "svn+ssh", pstr "sftp",
   pstr "nfs", pstr "git", pstr "git+ssh", pstr "ws", pstr "wss"]

/-- Split a path at its last `'/'`: `(everything up to and including the
last slash, the final segment)`.  Requires `'/' ∈ s` to be meaningful. -/
def splitAtLastSlash (s : PStr) : PStr × PStr :=
  let revSeg := s.reverse.takeWhile (· ≠ '/')
  (s.take (s.length - revSeg.length), revSeg.reverse)

/-- `urllib.parse._splitparams`: split `;params` off the last path
segment (or off the whole string if it has no `'/'`). -/
def splitparams (url : PStr) : PStr × PStr :=
  if '/' ∈ url then
    let p := splitAtLastSlash url
    if ';' ∈ p.2 then
      (p.1 ++ p.2.takeWhile (· ≠ ';'), (p.2.dropWhile (· ≠ ';')).drop 1)
    else (url, [])
  else if ';' ∈ url then
    (url.takeWhile (· ≠ ';'), (url.dropWhile (· ≠ ';')).drop 1)
  else (url, [])

/-- Result of `urlparse`. -/
structure ParseRes where
  scheme : PStr
  netloc : PStr
  path : PStr
  params : PStr
  query : PStr
  fragment : PStr
deriving DecidableEq, Repr

/-- `urllib.parse.urlparse(url, scheme=dflt)`. -/
def urlparseD (url dflt : PStr) : Option ParseRes :=
  (urlsplitD url dflt).map fun s =>
    if s.scheme ∈ usesParams ∧ ';' ∈ s.path then
      let p := splitparams s.path
      ⟨s.scheme, s.netloc, p.1, p.2, s.query, s.fragment⟩
    else ⟨s.scheme, s.netloc, s.path, [], s.query, s.fragment⟩

/-- `urllib.parse.urlparse(url)` with the default empty scheme, as the
crawler calls it. -/
def urlparse (url : PStr) : Option ParseRes := urlparseD url []

/-- `urllib.parse.urlunsplit((scheme, netloc, url, query, fragment))`. -/
def urlunsplit (scheme netloc url query fragment : PStr) : PStr :=
  let url :=
    if netloc ≠ [] ∨ (scheme ≠ [] ∧ scheme ∈ usesNetloc ∧ url.take 2 ≠ pstr "//") then
      pstr "//" ++ netloc ++
        (if url ≠ [] ∧ url.take 1 ≠ pstr "/" then '/' :: url else url)
    else url
  let url := if scheme ≠ [] then scheme ++ ':' :: url else url
  let url := if query ≠ [] then url ++ '?' :: query else url
  if fragment ≠ [] then url ++ '#' :: fragment else url

/-- `urllib.parse.urlunparse((scheme, netloc, url, params, query, fragment))`. -/
def urlunparse (scheme netloc url params query fragment : PStr) : PStr :=
  urlunsplit scheme netloc
    (if params ≠ [] then url ++ ';' :: params else url) query fragment

/-- `segments[1:-1] = filter(None, segments[1:-1])` in `urljoin`: keep the
first and last element, drop empty strings in between. -/
def filterMiddle (l : List PStr) : List PStr :=
  match l with
  | [] => []
  | [a] => [a]
  | a :: rest =>
    match rest.reverse with
    | [] => [a]
    | lastE :: midRev => a :: (midRev.reverse.filter (· ≠ [])) ++ [lastE]

/-- The `..`/`.` resolution loop of `urljoin`. -/
def resolveSegments (segments : List PStr) : List PStr :=
  segments.foldl
    (fun acc seg =>
      if seg = pstr ".." then acc.dropLast
      else if seg = pstr "." then acc
      else acc ++ [seg])
    []

/-- `urllib.parse.urljoin(base, url)`.  `none` models a `ValueError`
raised by one of the internal `urlparse` calls. -/
def urljoin (base url : PStr) : Option PStr :=
  if base = [] then some url
  else if url = [] then some base
  else
    match urlparseD base [] with
    | none => none
    | some b =>
      match urlparseD url b.scheme with
      | none => none
      | some r =>
        if r.scheme ≠ b.scheme ∨ r.scheme ∉ usesRelative then some url
        else if r.scheme ∈ usesNetloc ∧ r.netloc ≠ [] then
          some (urlunparse r.scheme r.netloc r.path r.params r.query r.fragment)
        else
          let netloc := if r.scheme ∈ usesNetloc then b.netloc else r.netloc
          if r.path = [] ∧ r.params = [] then
            let query := if r.query = [] then b.query else r.query
            some (urlunparse r.scheme netloc b.path b.params query r.fragment)
          else
            let baseParts0 := splitAll '/' b.path
            let baseParts :=
              if baseParts0.getLast? ≠ some [] then baseParts0.dropLast
              else baseParts0
            let segments :=
              if r.path.take 1 = pstr "/" then splitAll '/' r.path
              else filterMiddle (baseParts ++ splitAll '/' r.path)
            let resolved0 := resolveSegments segments
            let resolved :=
              if segments.getLast? = some (pstr "..") ∨
                  segments.getLast? = some (pstr ".") then
                resolved0 ++ [[]]
              else resolved0
            let joined := joinWith '/' resolved
            some (urlunparse r.scheme netloc
              (if joined = [] then pstr "/" else joined) r.params r.query r.fragment)

/-- Hex digit value (`urllib.parse._hexdig` lookup). -/
def hexVal (c : Char) : Option Nat :=
  if '0' ≤ c ∧ c ≤ '9' then some (c.toNat - '0'.toNat)
  else if 'a' ≤ c ∧ c ≤ 'f' then some (c.toNat - 'a'.toNat + 10)
  else if 'A' ≤ c ∧ c ≤ 'F' then some (c.toNat - 'A'.toNat + 10)
  else none

/-- `urllib.parse.unquote_to_bytes` on an ASCII chunk: after splitting on
`'%'`, each piece whose first two characters are hex digits contributes
the decoded byte followed by the rest of the piece; otherwise the `'%'`
is kept literally. -/
def unquoteBytesPieces (pieces : List PStr) : List Nat :=
  match pieces with
  | [] => []
  | first :: rest =>
    first.map Char.toNat ++
      rest.foldr
        (fun item acc =>
          (match item with
           | a :: b :: tail =>
             match hexVal a, hexVal b with
             | some ha, some hb => (ha * 16 + hb) :: tail.map Char.toNat
             | _, _ => '%'.toNat :: item.map Char.toNat
           | _ => '%'.toNat :: item.map Char.toNat) ++ acc)
        []

/-- Is a byte a UTF-8 continuation byte? -/
def isCont (b : Nat) : Bool := 0x80 ≤ b ∧ b ≤ 0xBF

/-- One step of UTF-8 decoding with the `'replace'` error handler: given
the lead byte and the remaining bytes, the number of additional bytes
consumed and the characters emitted (one U+FFFD per maximal malformed
subpart, as CPython does). -/
def utf8Step (b : Nat) (rest : List Nat) : Nat × PStr :=
  if b < 0x80 then (0, [Char.ofNat b])
  else if 0xC2 ≤ b ∧ b ≤ 0xDF then
    match rest with
    | b2 :: _ =>
      if isCont b2 then (1, [Char.ofNat ((b - 0xC0) * 64 + (b2 - 0x80))])
      else (0, [Char.ofNat 0xFFFD])
    | [] => (0, [Char.ofNat 0xFFFD])
  else if 0xE0 ≤ b ∧ b ≤ 0xEF then
    match rest with
    | b2 :: rest2 =>
      if (b = 0xE0 → 0xA0 ≤ b2) ∧ (b = 0xED → b2 ≤ 0x9F) ∧ isCont b2 then
        match rest2 with
        | b3 :: _ =>
          if isCont b3 then
            (2, [Char.ofNat ((b - 0xE0) * 4096 + (b2 - 0x80) * 64 + (b3 - 0x80))])
          else (1, [Char.ofNat 0xFFFD])
        | [] => (1, [Char.ofNat 0xFFFD])
      else (0, [Char.ofNat 0xFFFD])
    | [] => (0, [Char.ofNat 0xFFFD])
  else if 0xF0 ≤ b ∧ b ≤ 0xF4 then
    match rest with
    | b2 :: rest2 =>
      if (b = 0xF0 → 0x90 ≤ b2) ∧ (b = 0xF4 → b2 ≤ 0x8F) ∧ isCont b2 then
        match rest2 with
        | b3 :: rest3 =>
          if isCont b3 then
            match rest3 with
            | b4 :: _ =>
              if isCont b4 then
                (3, [Char.ofNat ((b - 0xF0) * 262144 + (b2 - 0x80) * 4096 +
                  (b3 - 0x80) * 64 + (b4 - 0x80))])
              else (2, [Char.ofNat 0xFFFD])
            | [] => (2, [Char.ofNat 0xFFFD])
          else (1, [Char.ofNat 0xFFFD])
        | [] => (1, [Char.ofNat 0xFFFD])
      else (0, [Char.ofNat 0xFFFD])
    | [] => (0, [Char.ofNat 0xFFFD])
  else (0, [Char.ofNat 0xFFFD])

/-- UTF-8 decoding with the `'replace'` error handler. -/
def utf8Replace : List Nat → PStr
  | [] => []
  | b :: rest =>
    let st := utf8Step b rest
    st.2 ++ utf8Replace (rest.drop st.1)
termination_by l => l.length
decreasing_by simp [List.length_drop]; omega

/-- One ASCII run of `unquote`: `unquote_to_bytes(run).decode('utf-8',
'replace')`. -/
def unquoteAsciiRun (run : PStr) : PStr :=
  utf8Replace (unquoteBytesPieces (splitAll '%' run))

/-- Is a character ASCII (for `_asciire` run splitting in `unquote`)? -/
def isAsciiChar (c : Char) : Bool := c.toNat ≤ 0x7F

/-- The run loop of `unquote`: percent-decode each maximal ASCII run,
pass non-ASCII characters through. -/
def unquoteRuns : PStr → PStr
  | [] => []
  | c :: rest =>
    if isAsciiChar c then
      unquoteAsciiRun (c :: rest.takeWhile isAsciiChar) ++
        unquoteRuns (rest.dropWhile isAsciiChar)
    else c :: unquoteRuns rest
termination_by l => l.length
decreasing_by
  · have h := (List.dropWhile_suffix (l := rest) isAsciiChar).length_le
    simp; omega
  · simp

/-- `urllib.parse.unquote(s)` (UTF-8, `'replace'`). -/
def unquote (s : PStr) : PStr :=
  if '%' ∈ s then unquoteRuns s else s

/-- The names (first components) of
`urllib.parse.parse_qsl(qs, keep_blank_values=True)` pairs, in order. -/
def parseQslNames (qs : PStr) : List PStr :=
  if qs = [] then []
  else
    (splitAll '&' qs).foldr
      (fun nv acc =>
        if nv = [] then acc
        else
          let name := if '=' ∈ nv then nv.takeWhile (· ≠ '=') else nv
          unquote (name.map fun c => if c = '+' then ' ' else c) :: acc)
      []

/-- Insert into an ordered duplicate-free list modelling a Python set. -/
def insertNew (l : List PStr) (x : PStr) : List PStr :=
  if x ∈ l then l else l ++ [x]

/-- Ordered de-duplication (the set of names seen, first sighting first). -/
def dedupList (l : List PStr) : List PStr := l.foldl insertNew []

/-! ## Model of `mapcrawller.py` -/

/-- `IGNORED_EXTENSIONS` from the source. -/
def IGNORED_EXTENSIONS : List PStr :=
  [pstr ".css", pstr ".png", pstr ".jpg", pstr ".jpeg", pstr ".gif",
   pstr ".svg", pstr ".ico", pstr ".woff", pstr ".woff2", pstr ".ttf",
   pstr ".eot", pstr ".mp4", pstr ".mp3", pstr ".pdf", pstr ".zip",
   pstr ".gz", pstr ".tar", pstr ".rar", pstr ".webp", pstr ".bmp",
   pstr ".tiff", pstr ".otf", pstr ".mov", pstr ".avi", pstr ".wmv",
   pstr ".flv", pstr ".iso", pstr ".bin"]

/-- An asset record: `{"value": ..., "source": ..., "timestamp": ...}`. -/
structure AssetRecord where
  value : PStr
  source : PStr
  timestamp : PStr
deriving DecidableEq, Repr

/-- Association-list lookup with a default (`defaultdict` read). -/
def alGet : List (PStr × α) → PStr → α → α
  | [], _, d => d
  | e :: rest, k, d => if e.1 = k then e.2 else alGet rest k d

/-- Association-list update, preserving Python-dict key insertion order:
update the first occurrence in place if the key exists, else append the
new key at the end. -/
def alSet : List (PStr × α) → PStr → α → List (PStr × α)
  | [], k, v => [(k, v)]
  | e :: rest, k, v => if e.1 = k then (k, v) :: rest else e :: alSet rest k v

/-- The mutable state of `StateManager` (the fields touched by the
modelled operations). -/
structure SMState where
  verbose : Bool
  filters : Option (List PStr)
  assets : List (PStr × List AssetRecord)
  seen_values : List (PStr × List PStr)
  logs : List PStr
  queue_size : Nat
deriving DecidableEq, Repr

/-- A fresh `StateManager` (empty stores). -/
def smInit (verbose : Bool) (filters : Option (List PStr)) : SMState :=
  ⟨verbose, filters, [], [], [], 0⟩

/-- `StateManager.allowed`. -/
def allowed (s : SMState) (category : PStr) : Bool :=
  match s.filters with
  | none => true
  | some fs => category ∈ fs

/-- Python substring test (`pat in s`). -/
def containsStr (s pat : PStr) : Bool :=
  match s with
  | [] => pat = []
  | _ :: rest => startsWith s pat ∨ containsStr rest pat

/-- `StateManager.log(message, force)` (with the timestamp passed in). -/
def smLog (s : SMState) (ts message : PStr) (force : Bool) : SMState :=
  if ¬s.verbose ∧ ¬force ∧ containsStr message (pstr "[dim]") then s
  else
    let logs := s.logs ++ [pstr "[dim]" ++ ts ++ pstr "[/] " ++ message]
    { s with logs := if 15 < logs.length then logs.drop 1 else logs }

/-- `StateManager.add_asset(category, value, source)`, with the two
`datetime.now()` readings passed in (`tsIso` for the record timestamp,
`tsLog` for the log line). -/
def add_asset (s : SMState) (category value source tsIso tsLog : PStr) :
    SMState :=
  if ¬allowed s category then s
  else if value = [] ∨ 2000 < value.length then s
  else
    let value := pyStrip value
    let dedupKey := category ++ ':' :: value
    if dedupKey ∈ alGet s.seen_values category [] then s
    else
      let s' : SMState :=
        { s with
          seen_values :=
            alSet s.seen_values category
              (alGet s.seen_values category [] ++ [dedupKey]),
          assets :=
            alSet s.assets category
              (alGet s.assets category [] ++ [⟨value, source, tsIso⟩]) }
      if category = pstr "secrets" ∨ category = pstr "cloud_buckets" ∨
          category = pstr "subdomains" then
        smLog s' tsLog
          (pstr "[bold red]![/] " ++ pyUpper category ++ pstr ": [cyan]" ++
            value.take 60 ++ pstr "[/]") true
      else s'

/-- The values recorded in a category, in insertion order. -/
def valuesOf (s : SMState) (category : PStr) : List PStr :=
  (alGet s.assets category []).map (·.value)

/-! ### `Analyzers` -/

/-- `Analyzers.normalize_url`, steps before the parse: strip, reject
empty and non-web schemes, make protocol-relative URLs https, resolve
against the base when there is one. -/
def resolve_url (url base : PStr) : Option PStr :=
  let url := pyStrip url
  if url = [] ∨ startsWith url (pstr "javascript:") ∨
      startsWith url (pstr "mailto:") ∨ startsWith url (pstr "data:") ∨
      startsWith url (pstr "tel:") ∨ startsWith url (pstr "#") then none
  else if startsWith url (pstr "//") then some (pstr "https:" ++ url)
  else if ¬(startsWith url (pstr "http://") ∨ startsWith url (pstr "https://")) then
    if base ≠ [] then urljoin base url else none
  else some url

/-- `Analyzers.normalize_url(url, base)`: resolve, parse, re-serialize
with the netloc lowercased and the fragment dropped.  `none` is the
`except`-clause result. -/
def normalize_url (url base : PStr) : Option PStr :=
  match resolve_url url base with
  | none => none
  | some u2 =>
    match urlparse u2 with
    | none => none
    | some p =>
      some (urlunparse p.scheme (pyLower p.netloc) p.path p.params p.query [])

/-- `Analyzers.extract_query_params(url)`: the set of query-string keys
(blank values kept), modelled in first-occurrence order. -/
def extract_query_params (url : PStr) : List PStr :=
  match urlparse url with
  | none => []
  | some p => dedupList (parseQslNames p.query)

/-- `Analyzers.extract_directories(url)`: the set of accumulated
directory prefixes, modelled in insertion order (they are pairwise
distinct, so the list is duplicate-free). -/
def extract_directories (url : PStr) : List PStr :=
  match urlparse url with
  | none => []
  | some p =>
    let path := if p.path = [] then pstr "/" else p.path
    let path := if startsWith path (pstr "/") then path else '/' :: path
    let base_path :=
      if endsWith path (pstr "/") then path
      else
        -- `path.rsplit("/", 1)[0] + "/"`:
        ((splitAtLastSlash path).1.dropLast) ++ ['/']
    let base_path := if base_path = pstr "//" then pstr "/" else base_path
    let parts := (splitAll '/' base_path).filter (· ≠ [])
    (parts.foldl
      (fun st p => (st.1 ++ p ++ ['/'], st.2 ++ [st.1 ++ p ++ ['/']]))
      (pstr "/", [])).2

/-! ### `Crawler` -/

/-- The crawler's mutable state (the fields the claims are about):
the shared `StateManager`, the visited set (admission keys), the frontier
queue, the scope domain and the configured depth bound. -/
structure CrawlSt where
  sm : SMState
  visited : List PStr
  queue : List (PStr × Nat × PStr)
  base_domain : PStr
  max_depth : Nat
deriving DecidableEq, Repr

/-- `Crawler.is_in_scope` (the `except` clause yields `False`). -/
def is_in_scope (base_domain url : PStr) : Bool :=
  match urlparse url with
  | none => false
  | some p =>
    let netloc := pyLower p.netloc
    netloc = base_domain ∨ endsWith netloc ('.' :: base_domain)

/-- `Crawler.is_valid_asset` (`none` models the uncaught `ValueError`
from `urlparse`). -/
def is_valid_asset (url : PStr) : Option Bool :=
  (urlparse url).map fun p =>
    ¬IGNORED_EXTENSIONS.any fun ext => endsWith (pyLower p.path) ext

/-- `Crawler.add_url_derivatives(url, source)`. -/
def add_url_derivatives (s : SMState) (url source now : PStr) : SMState :=
  let s :=
    (extract_directories url).foldl
      (fun st d => add_asset st (pstr "directories") d source now now) s
  (extract_query_params url).foldl
    (fun st p => add_asset st (pstr "params") p source now now) s

/-- `Crawler.enqueue(url, depth, source)`.  The single `now` parameter
stands for the `datetime.now()` readings made during the call.  Where the
source would raise (the `urlparse` calls at `is_valid_asset` and at the
subdomain check), the state mutated so far is returned: the exception
propagates out of `enqueue` and is swallowed at the worker boundary. -/
def enqueue (c : CrawlSt) (url : PStr) (depth : Nat) (source now : PStr) :
    CrawlSt :=
  if c.max_depth < depth then c
  else
    match normalize_url url [] with
    | none => c
    | some normalized =>
      let c :=
        if is_in_scope c.base_domain normalized then
          let sm :=
            add_asset c.sm (pstr "endpoints") (splitHash normalized) source now now
          { c with sm := add_url_derivatives sm normalized source now }
        else
          { c with
            sm := add_asset c.sm (pstr "external_endpoints")
              (splitHash normalized) source now now }
      if ¬is_in_scope c.base_domain normalized then c
      else
        let clean_url := splitHash normalized
        if clean_url ∈ c.visited then c
        else
          let c := { c with visited := c.visited ++ [clean_url] }
          match is_valid_asset clean_url with
          | none => c
          | some valid =>
            if ¬valid then
              let sm := add_asset c.sm (pstr "files") clean_url source now now
              { c with sm := add_url_derivatives sm clean_url source now }
            else
              let c := { c with queue := c.queue ++ [(clean_url, depth, source)] }
              let c := { c with sm := { c.sm with queue_size := c.queue.length } }
              match urlparse clean_url with
              | none => c
              | some parsed =>
                let netloc := parsed.netloc
                if netloc ≠ c.base_domain ∧ endsWith netloc ('.' :: c.base_domain) then
                  { c with
                    sm := add_asset c.sm (pstr "subdomains") netloc clean_url now now }
                else c

/-! ### Worker dispatch (`Crawler.worker`, per-task handling) -/

/-- The observable outcome of one worker iteration after `fetch`
returned: the counter increments from lines 522–525 and the bodies
handed to `process_page` (the extractors) by line 526–527. -/
structure WorkerOutcome where
  failedInc : Nat
  processedInc : Nat
  pagesProcessed : List PStr
deriving DecidableEq, Repr

/-- Lines 522–527 of `Crawler.worker`: `status >= 400 or status == 0`
routes to the failed counter, and `if content:` (falsy for `None` and for
the empty string) decides whether `process_page` — and with it every
extractor — runs on the body.  `none` models `content is None`. -/
def workerHandle (status : Nat) (content : Option PStr) : WorkerOutcome :=
  { failedInc := if 400 ≤ status ∨ status = 0 then 1 else 0
    processedInc := if 400 ≤ status ∨ status = 0 then 0 else 1
    pagesProcessed :=
      match content with
      | none => []
      | some t => if t = [] then [] else [t] }

/-! ### The text-regex URL extractor (`REGEX_PATTERNS["url"]`) -/

/-- The character class `[^"'`\s]` of the URL regex: anything but a
double quote, single quote, backtick or (Unicode) whitespace. -/
def regexAllowedChar (c : Char) : Bool :=
  ¬(c.toNat = 34 ∨ c.toNat = 39 ∨ c.toNat = 96 ∨ isPySpace c)

/-- Scan for `\.[a-zA-Z]{2,}` at any position of the argument. -/
def hasDotAA : PStr → Bool
  | c :: a :: b :: rest =>
    (c = '.' ∧ isAsciiAlpha a ∧ isAsciiAlpha b) ∨ hasDotAA (a :: b :: rest)
  | _ => false

/-- The common tail `[^"'`\s]{1,}\.[a-zA-Z]{2,}[^"'`\s]*` of the absolute
alternative: all characters allowed, and a dot followed by at least two
ASCII letters at some position ≥ 1. -/
def urlRegexTail (r : PStr) : Bool :=
  r.all regexAllowedChar ∧ hasDotAA (r.drop 1)

/-- The absolute alternative `(?:[a-zA-Z]{1,10}://|//)…` of the URL
regex: what the group can capture. -/
def urlRegexAbs (s : PStr) : Bool :=
  let L := (s.takeWhile isAsciiAlpha).length
  (1 ≤ L ∧ L ≤ 10 ∧ startsWith (s.drop L) (pstr "://") ∧
    urlRegexTail (s.drop (L + 3))) ∨
  (startsWith s (pstr "//") ∧ urlRegexTail (s.drop 2))

/-- The relative alternative `(?:/|\.\./|\./)[^"'`\s]*?` of the URL
regex: what the group can capture (a prefix `/`, `./` or `../` and
allowed characters throughout). -/
def urlRegexRel (s : PStr) : Bool :=
  (startsWith s (pstr "../") ∨ startsWith s (pstr "./") ∨
    startsWith s (pstr "/")) ∧ s.all regexAllowedChar

/-- A string the quoted-URL regex can capture as its group 1. -/
def urlRegexCapture (s : PStr) : Bool := urlRegexAbs s ∨ urlRegexRel s

/-- The per-match body of the URL loop at the end of
`Crawler.scan_text_content`: normalize the captured string against the
source URL and enqueue it at `max_depth`. -/
def scanTextUrlStep (c : CrawlSt) (raw source_url now : PStr) : CrawlSt :=
  match normalize_url raw source_url with
  | none => c
  | some full => enqueue c full c.max_depth source_url now

/-! ### Runs of `enqueue` calls -/

/-- One `enqueue` call's arguments (with its `datetime.now()` reading). -/
structure EnqCall where
  url : PStr
  depth : Nat
  source : PStr
  now : PStr

/-- Apply one `enqueue` call. -/
def enqueueStep (c : CrawlSt) (call : EnqCall) : CrawlSt :=
  enqueue c call.url call.depth call.source call.now

/-- A run: a sequence of `enqueue` calls from a starting state. -/
def enqueueRun (c : CrawlSt) (calls : List EnqCall) : CrawlSt :=
  calls.foldl enqueueStep c

/-- The frontier admissions (queue pushes) a run performs, in order. -/
def enqueuePushes (c : CrawlSt) : List EnqCall → List (PStr × Nat × PStr)
  | [] => []
  | call :: rest =>
    let c' := enqueueStep c call
    c'.queue.drop c.queue.length ++ enqueuePushes c' rest

/-! ### Claim-support definitions -/

/-- The UTF-8 encoded byte length of a Python string (what "2000 bytes"
in the specification would measure). -/
def utf8Len (s : PStr) : Nat := s.foldl (fun n c => n + c.utf8Size) 0

/-- The slash-prefixed path the directory extractor works on
(lines 333–335 of the source). -/
def effectivePath (url : PStr) : Option PStr :=
  (urlparse url).map fun p =>
    let path := if p.path = [] then pstr "/" else p.path
    if startsWith path (pstr "/") then path else '/' :: path

/-- Modelled from the spec: "all parent path prefixes ending with `/`,
up to and including `/`" — `d` is such a prefix of the path `path`. -/
def specParentDir (path d : PStr) : Bool :=
  d.isPrefixOf path ∧ endsWith d (pstr "/")

/-- Join segments as directory components: each segment followed by a
slash (`s₁/s₂/…/sₙ/`). -/
def segsJoin : List PStr → PStr
  | [] => []
  | s :: rest => s ++ '/' :: segsJoin rest

/-- The successive accumulations the directory-extraction loop records:
`acc ++ s₁ ++ "/"`, `acc ++ s₁ ++ "/" ++ s₂ ++ "/"`, …. -/
def segsAccum (acc : PStr) : List PStr → List PStr
  | [] => []
  | s :: rest => (acc ++ s ++ ['/']) :: segsAccum (acc ++ s ++ ['/']) rest

/-- The slash-prefixed path `extract_directories` derives from a parse
result (the same computation `effectivePath` performs after `urlparse`). -/
def effPathOf (p : ParseRes) : PStr :=
  let path := if p.path = [] then pstr "/" else p.path
  if startsWith path (pstr "/") then path else '/' :: path

/-- The base path the directory extractor splits: the effective path if
it ends in a slash, otherwise everything up to and including the last
slash, with a bare `//` collapsed to `/`. -/
def basePathOf (ep : PStr) : PStr :=
  let bp := if endsWith ep (pstr "/") then ep
            else ((splitAtLastSlash ep).1.dropLast) ++ ['/']
  if bp = pstr "//" then pstr "/" else bp

/-- The path argument `urlunparse` hands to `urlunsplit`: the path with
the params re-attached after a `;` when present. -/
def pathParams (p : ParseRes) : PStr :=
  if p.params ≠ [] then p.path ++ ';' :: p.params else p.path

/-- The scope bookkeeping invariant the amended claim C2 states: every
recorded `endpoints` value is the whitespace-stripped, fragment-stripped
form of a URL the scope predicate accepted, and every recorded
`external_endpoints` value is the stripped form of one it rejected. -/
def ScopeInv (bd : PStr) (sm : SMState) : Prop :=
  (∀ v ∈ valuesOf sm (pstr "endpoints"),
    ∃ u, v = pyStrip (splitHash u) ∧ is_in_scope bd u = true) ∧
  (∀ v ∈ valuesOf sm (pstr "external_endpoints"),
    ∃ u, v = pyStrip (splitHash u) ∧ is_in_scope bd u = false)

/-- The store/dedup invariant of `StateManager`: per category, recorded
values are pairwise distinct, and the seen-set holds exactly the dedup
keys of the recorded values. -/
def DedupInv (sm : SMState) : Prop :=
  ∀ cat : PStr,
    (valuesOf sm cat).Nodup ∧
    ∀ v : PStr, (cat ++ ':' :: v) ∈ alGet sm.seen_values cat [] ↔ v ∈ valuesOf sm cat

/-! ## Helper lemmas: association lists and the asset store -/

theorem alGet_alSet_self (m : List (PStr × α)) (k : PStr) (v : α) (d : α) :
    alGet (alSet m k v) k d = v := by
  induction m with
  | nil => simp [alGet, alSet]
  | cons e rest ih =>
    by_cases h : e.1 = k
    · simp [alGet, alSet, h]
    · simp [alGet, alSet, h, ih]

theorem alGet_alSet_ne (m : List (PStr × α)) (k k' : PStr) (v : α) (d : α)
    (h : k' ≠ k) : alGet (alSet m k v) k' d = alGet m k' d := by
  induction m with
  | nil => simp [alGet, alSet, Ne.symm h]
  | cons e rest ih =>
    by_cases he : e.1 = k
    · have he' : e.1 ≠ k' := fun hh => h (hh.symm.trans he)
      simp [alGet, alSet, he, Ne.symm h, he']
    · have hset : alSet (e :: rest) k v = e :: alSet rest k v := by
        simp [alSet, he]
      by_cases he' : e.1 = k'
      · rw [hset]; simp [alGet, he']
      · rw [hset]; simp [alGet, he', ih]

theorem smLog_assets (s : SMState) (ts msg : PStr) (f : Bool) :
    (smLog s ts msg f).assets = s.assets := by
  unfold smLog; split <;> rfl

theorem smLog_seen (s : SMState) (ts msg : PStr) (f : Bool) :
    (smLog s ts msg f).seen_values = s.seen_values := by
  unfold smLog; split <;> rfl

theorem smLog_filters (s : SMState) (ts msg : PStr) (f : Bool) :
    (smLog s ts msg f).filters = s.filters := by
  unfold smLog; split <;> rfl

/-- `add_asset` is a no-op when the category is filtered out, the value
fails the guard, or the dedup key has been seen. -/
theorem add_asset_noop (s : SMState) (cat v src t₁ t₂ : PStr)
    (h : ¬allowed s cat ∨ (v = [] ∨ 2000 < v.length) ∨
      (cat ++ ':' :: pyStrip v) ∈ alGet s.seen_values cat []) :
    add_asset s cat v src t₁ t₂ = s := by
  rcases h with h | h | h
  · simp [add_asset, h]
  · by_cases h1 : allowed s cat <;> simp [add_asset, h1, h]
  · by_cases h1 : allowed s cat
    · by_cases h2 : v = [] ∨ 2000 < v.length <;>
        simp [add_asset, h1, h2, h]
    · simp [add_asset, h1]

/-- `add_asset` leaves the filter configuration unchanged. -/
theorem add_asset_filters (s : SMState) (cat v src t₁ t₂ : PStr) :
    (add_asset s cat v src t₁ t₂).filters = s.filters := by
  by_cases h1 : allowed s cat
  · by_cases h2 : v = [] ∨ 2000 < v.length
    · simp [add_asset, h1, h2]
    · by_cases h3 : (cat ++ ':' :: pyStrip v) ∈ alGet s.seen_values cat []
      · simp [add_asset, h1, h2, h3]
      · by_cases h4 : cat = pstr "secrets" ∨ cat = pstr "cloud_buckets" ∨
            cat = pstr "subdomains" <;>
          simp [add_asset, h1, h2, h3, h4, smLog_filters]
  · simp [add_asset, h1]

/-- On a fresh admissible value, `add_asset` appends the record and the
dedup key. -/
theorem add_asset_fresh (s : SMState) (cat v src t₁ t₂ : PStr)
    (hall : allowed s cat) (hv : v ≠ []) (hlen : ¬2000 < v.length)
    (hkey : (cat ++ ':' :: pyStrip v) ∉ alGet s.seen_values cat []) :
    alGet (add_asset s cat v src t₁ t₂).assets cat [] =
      alGet s.assets cat [] ++ [⟨pyStrip v, src, t₁⟩] ∧
    alGet (add_asset s cat v src t₁ t₂).seen_values cat [] =
      alGet s.seen_values cat [] ++ [cat ++ ':' :: pyStrip v] := by
  have h2 : ¬(v = [] ∨ 2000 < v.length) := by simp [hv, hlen]
  by_cases h4 : cat = pstr "secrets" ∨ cat = pstr "cloud_buckets" ∨
      cat = pstr "subdomains" <;>
    simp [add_asset, hall, h2, hkey, h4, smLog_assets, smLog_seen,
      alGet_alSet_self]

/-- `add_asset` leaves every other category's records untouched. -/
theorem add_asset_assets_ne (s : SMState) (cat cat' v src t₁ t₂ : PStr)
    (h : cat' ≠ cat) :
    alGet (add_asset s cat v src t₁ t₂).assets cat' [] =
      alGet s.assets cat' [] := by
  by_cases h1 : allowed s cat
  · by_cases h2 : v = [] ∨ 2000 < v.length
    · simp [add_asset, h1, h2]
    · by_cases h3 : (cat ++ ':' :: pyStrip v) ∈ alGet s.seen_values cat []
      · simp [add_asset, h1, h2, h3]
      · by_cases h4 : cat = pstr "secrets" ∨ cat = pstr "cloud_buckets" ∨
            cat = pstr "subdomains" <;>
          simp [add_asset, h1, h2, h3, h4, smLog_assets,
            alGet_alSet_ne _ _ _ _ _ h]
  · simp [add_asset, h1]

/-- `add_asset` leaves every other category's seen-set untouched. -/
theorem add_asset_seen_ne (s : SMState) (cat cat' v src t₁ t₂ : PStr)
    (h : cat' ≠ cat) :
    alGet (add_asset s cat v src t₁ t₂).seen_values cat' [] =
      alGet s.seen_values cat' [] := by
  by_cases h1 : allowed s cat
  · by_cases h2 : v = [] ∨ 2000 < v.length
    · simp [add_asset, h1, h2]
    · by_cases h3 : (cat ++ ':' :: pyStrip v) ∈ alGet s.seen_values cat []
      · simp [add_asset, h1, h2, h3]
      · by_cases h4 : cat = pstr "secrets" ∨ cat = pstr "cloud_buckets" ∨
            cat = pstr "subdomains" <;>
          simp [add_asset, h1, h2, h3, h4, smLog_seen,
            alGet_alSet_ne _ _ _ _ _ h]
  · simp [add_asset, h1]

/-- Whatever `add_asset` does, the target category's record list either
stays or gains exactly the stripped value. -/
theorem add_asset_values_cases (s : SMState) (cat v src t₁ t₂ : PStr) :
    valuesOf (add_asset s cat v src t₁ t₂) cat = valuesOf s cat ∨
    valuesOf (add_asset s cat v src t₁ t₂) cat =
      valuesOf s cat ++ [pyStrip v] := by
  by_cases hall : allowed s cat
  · by_cases hg : v = [] ∨ 2000 < v.length
    · left; rw [add_asset_noop s cat v src t₁ t₂ (Or.inr (Or.inl hg))]
    · by_cases hkey : (cat ++ ':' :: pyStrip v) ∈ alGet s.seen_values cat []
      · left; rw [add_asset_noop s cat v src t₁ t₂ (Or.inr (Or.inr hkey))]
      · right
        have h := add_asset_fresh s cat v src t₁ t₂ hall
          (fun h => hg (Or.inl h)) (fun h => hg (Or.inr h)) hkey
        simp [valuesOf, h.1]
  · left; rw [add_asset_noop s cat v src t₁ t₂ (Or.inl hall)]

theorem valuesOf_ne (s : SMState) (cat cat' v src t₁ t₂ : PStr)
    (h : cat' ≠ cat) :
    valuesOf (add_asset s cat v src t₁ t₂) cat' = valuesOf s cat' := by
  simp [valuesOf, add_asset_assets_ne s cat cat' v src t₁ t₂ h]

/-! ## Claim C9 -/

/-- The guard in `add_asset` counts characters, and an early return
leaves the state untouched: rejected values change nothing. -/
theorem add_asset_guard_noop (s : SMState) (cat v src t₁ t₂ : PStr)
    (h : v = [] ∨ 2000 < v.length) : add_asset s cat v src t₁ t₂ = s :=
  add_asset_noop s cat v src t₁ t₂ (Or.inr (Or.inl h))

theorem utf8Len_aux (l : PStr) (n : Nat) :
    l.foldl (fun n c => n + c.utf8Size) n = n + utf8Len l := by
  induction l generalizing n with
  | nil => simp [utf8Len]
  | cons c rest ih =>
    simp only [utf8Len, List.foldl_cons]
    rw [ih, ih (0 + c.utf8Size)]
    omega

theorem utf8Len_replicate (n : Nat) (c : Char) :
    utf8Len (List.replicate n c) = n * c.utf8Size := by
  induction n with
  | zero => simp [utf8Len]
  | succ k ih =>
    rw [List.replicate_succ]
    simp only [utf8Len, List.foldl_cons]
    rw [utf8Len_aux, ih]
    ring

theorem dropWhile_replicate_of_not (p : Char → Bool) (n : Nat) (a : Char)
    (h : p a = false) :
    List.dropWhile p (List.replicate n a) = List.replicate n a := by
  cases n with
  | zero => rfl
  | succ k => rw [List.replicate_succ]; simp [List.dropWhile_cons, h]

theorem pyStrip_replicate_of_not (n : Nat) (a : Char)
    (h : isPySpace a = false) :
    pyStrip (List.replicate n a) = List.replicate n a := by
  unfold pyStrip
  rw [dropWhile_replicate_of_not _ _ _ h, List.reverse_replicate,
    dropWhile_replicate_of_not _ _ _ h, List.reverse_replicate]

theorem replicate_ne_nil_of_pos (n : Nat) (a : Char) (h : 0 < n) :
    List.replicate n a ≠ ([] : PStr) := by
  intro heq
  have := congrArg List.length heq
  rw [List.length_replicate] at this
  simp at this
  omega

/-- C9, counterexample.  The claim says values longer than 2000 *bytes*
are dropped with the store unchanged; the code's guard is
`len(value) > 2000`, which counts characters.  A 501-character string of
U+10000 (4 UTF-8 bytes each) is 2004 bytes long, yet `add_asset` happily
records it. -/
theorem C9_counterexample :
    2000 < utf8Len (List.replicate 501 (Char.ofNat 0x10000)) ∧
    (List.replicate 501 (Char.ofNat 0x10000) : PStr).length ≤ 2000 ∧
    valuesOf
      (add_asset (smInit false none) (pstr "comments")
        (List.replicate 501 (Char.ofNat 0x10000)) (pstr "src") [] [])
      (pstr "comments") =
      [List.replicate 501 (Char.ofNat 0x10000)] := by
  have hsize : (Char.ofNat 0x10000).utf8Size = 4 := by decide
  refine ⟨?_, ?_, ?_⟩
  · rw [utf8Len_replicate, hsize]; norm_num
  · rw [List.length_replicate]; norm_num
  · have hfresh := add_asset_fresh (smInit false none) (pstr "comments")
      (List.replicate 501 (Char.ofNat 0x10000)) (pstr "src") [] []
      (by rfl) (replicate_ne_nil_of_pos 501 _ (by norm_num))
      (by rw [List.length_replicate]; norm_num)
      (by rw [show alGet (smInit false none).seen_values (pstr "comments") [] =
            ([] : List PStr) from rfl]; exact List.not_mem_nil _)
    have hstrip := pyStrip_replicate_of_not 501 (Char.ofNat 0x10000) (by decide)
    unfold valuesOf
    rw [hfresh.1, hstrip,
      show alGet (smInit false none).assets (pstr "comments") [] =
        ([] : List AssetRecord) from rfl]
    rfl

/-- C9, amended: `add(category, value, source)` leaves the asset store
completely unchanged whenever the value is empty or longer than 2000
*characters* (Python `len`): no record is appended, the seen set is not
modified, and nothing is logged. -/
theorem C9_reject_noop (s : SMState) (cat v src t₁ t₂ : PStr)
    (h : v = [] ∨ 2000 < v.length) : add_asset s cat v src t₁ t₂ = s :=
  add_asset_guard_noop s cat v src t₁ t₂ h

/-- C9, witness for the amended theorem. -/
theorem C9_reject_noop_witness :
    add_asset (smInit false none) (pstr "emails") [] (pstr "src") [] [] =
      smInit false none :=
  C9_reject_noop (smInit false none) (pstr "emails") [] (pstr "src") [] []
    (Or.inl rfl)

/-! ## Claim C10 -/

theorem allowed_of_filters_eq (s s' : SMState) (cat : PStr)
    (h : s'.filters = s.filters) : allowed s' cat = allowed s cat := by
  unfold allowed; rw [h]

/-- On a fresh admissible value, the recorded values gain exactly the
stripped value. -/
theorem add_asset_values_fresh (s : SMState) (cat v src t₁ t₂ : PStr)
    (hall : allowed s cat) (hv : v ≠ []) (hlen : ¬2000 < v.length)
    (hkey : (cat ++ ':' :: pyStrip v) ∉ alGet s.seen_values cat []) :
    valuesOf (add_asset s cat v src t₁ t₂) cat =
      valuesOf s cat ++ [pyStrip v] := by
  unfold valuesOf
  rw [(add_asset_fresh s cat v src t₁ t₂ hall hv hlen hkey).1]
  simp

theorem dropWhile_cons_of_not (p : Char → Bool) (a : Char) (l : PStr)
    (h : p a = false) : List.dropWhile p (a :: l) = a :: l := by
  simp [List.dropWhile_cons, h]

theorem dropWhile_replicate_append (p : Char → Bool) (m : Nat) (a : Char)
    (t : PStr) (h : p a = true) :
    List.dropWhile p (List.replicate m a ++ t) = List.dropWhile p t := by
  induction m with
  | zero => simp
  | succ k ih =>
    rw [List.replicate_succ, List.cons_append]
    simp [List.dropWhile_cons, h, ih]

theorem pyStrip_alpha_spaces (k m : Nat) :
    pyStrip (List.replicate (k + 1) 'a' ++ List.replicate m ' ') =
      List.replicate (k + 1) 'a' := by
  unfold pyStrip
  rw [List.replicate_succ, List.cons_append,
    dropWhile_cons_of_not _ _ _ (by decide), ← List.cons_append,
    ← List.replicate_succ, List.reverse_append, List.reverse_replicate,
    dropWhile_replicate_append _ _ _ _ (by decide), List.reverse_replicate,
    List.replicate_succ, dropWhile_cons_of_not _ _ _ (by decide),
    ← List.replicate_succ, List.reverse_replicate]

/-- C10, counterexample.  The claim promises "exactly one record" for any
two add calls whose values differ only in surrounding whitespace; but
when both values fail the length guard (here 2001 and 2002 characters,
stripping to the same 2000-character value) neither call records
anything, so zero records result. -/
theorem C10_counterexample :
    (List.replicate 2000 'a' ++ [' '] : PStr) ≠
      List.replicate 2000 'a' ++ [' ', ' '] ∧
    pyStrip (List.replicate 2000 'a' ++ [' ']) =
      pyStrip (List.replicate 2000 'a' ++ [' ', ' ']) ∧
    add_asset
      (add_asset (smInit false none) (pstr "comments")
        (List.replicate 2000 'a' ++ [' ']) (pstr "s") [] [])
      (pstr "comments") (List.replicate 2000 'a' ++ [' ', ' '])
      (pstr "s") [] [] = smInit false none := by
  have h2000 : (2000 : Nat) = 1999 + 1 := by norm_num
  have hs1 : pyStrip (List.replicate 2000 'a' ++ [' ']) =
      List.replicate 2000 'a' := by
    rw [h2000, show ([' '] : PStr) = List.replicate 1 ' ' from rfl]
    exact pyStrip_alpha_spaces 1999 1
  have hs2 : pyStrip (List.replicate 2000 'a' ++ [' ', ' ']) =
      List.replicate 2000 'a' := by
    rw [h2000, show ([' ', ' '] : PStr) = List.replicate 2 ' ' from rfl]
    exact pyStrip_alpha_spaces 1999 2
  have hl1 : (List.replicate 2000 'a' ++ [' '] : PStr).length = 2001 := by
    rw [List.length_append, List.length_replicate]; rfl
  have hl2 : (List.replicate 2000 'a' ++ [' ', ' '] : PStr).length = 2002 := by
    rw [List.length_append, List.length_replicate]; rfl
  refine ⟨?_, ?_, ?_⟩
  · intro h
    have h' := congrArg List.length h
    rw [hl1, hl2] at h'
    norm_num at h'
  · rw [hs1, hs2]
  · rw [add_asset_guard_noop _ _ _ _ _ _ (Or.inr (by rw [hl2]; norm_num)),
      add_asset_guard_noop _ _ _ _ _ _ (Or.inr (by rw [hl1]; norm_num))]

/-- C10, amended: every record stored by `add_asset` has a value equal to
its own whitespace-stripped form, and deduplication is keyed on the
category plus the stripped value — so two add calls whose values differ
only in leading or trailing whitespace, *at least one of which passes the
non-empty/≤2000-character guard*, produce exactly one record for the
shared stripped value. -/
theorem C10_strip_dedup (sm : SMState) (cat v₁ v₂ src₁ src₂ t₁ t₂ t₃ t₄ : PStr)
    (hall : allowed sm cat = true)
    (heqs : pyStrip v₂ = pyStrip v₁)
    (hnew : pyStrip v₁ ∉ valuesOf sm cat)
    (hkey : (cat ++ ':' :: pyStrip v₁) ∉ alGet sm.seen_values cat [])
    (hguard : (v₁ ≠ [] ∧ ¬2000 < v₁.length) ∨ (v₂ ≠ [] ∧ ¬2000 < v₂.length)) :
    (valuesOf
        (add_asset (add_asset sm cat v₁ src₁ t₁ t₂) cat v₂ src₂ t₃ t₄)
        cat).count (pyStrip v₁) = 1 := by
  have hcount0 : (valuesOf sm cat).count (pyStrip v₁) = 0 :=
    List.count_eq_zero.mpr hnew
  by_cases hg1 : v₁ ≠ [] ∧ ¬2000 < v₁.length
  · -- first call records the stripped value
    have hfresh := add_asset_fresh sm cat v₁ src₁ t₁ t₂ hall hg1.1 hg1.2 hkey
    have hvals1 := add_asset_values_fresh sm cat v₁ src₁ t₁ t₂ hall hg1.1 hg1.2 hkey
    -- second call is a no-op: either its guard fails or its key is seen
    have hnoop2 : add_asset (add_asset sm cat v₁ src₁ t₁ t₂) cat v₂ src₂ t₃ t₄ =
        add_asset sm cat v₁ src₁ t₁ t₂ := by
      by_cases hg2 : v₂ = [] ∨ 2000 < v₂.length
      · exact add_asset_noop _ _ _ _ _ _ (Or.inr (Or.inl hg2))
      · refine add_asset_noop _ _ _ _ _ _ (Or.inr (Or.inr ?_))
        rw [heqs, hfresh.2]
        simp
    rw [hnoop2, hvals1]
    simp [hcount0]
  · rcases hguard with hg | hg2
    · exact absurd hg hg1
    · -- first call is rejected by the guard, second records the value
      have hnoop1 : add_asset sm cat v₁ src₁ t₁ t₂ = sm := by
        refine add_asset_guard_noop _ _ _ _ _ _ ?_
        by_cases h : v₁ = []
        · exact Or.inl h
        · right
          by_contra hlt
          exact hg1 ⟨h, hlt⟩
      have hkey2 : (cat ++ ':' :: pyStrip v₂) ∉ alGet sm.seen_values cat [] := by
        rw [heqs]; exact hkey
      have hvals2 := add_asset_values_fresh sm cat v₂ src₂ t₃ t₄ hall hg2.1 hg2.2 hkey2
      rw [hnoop1, hvals2, heqs]
      simp [hcount0]

/-- C10, witness for the amended theorem. -/
theorem C10_strip_dedup_witness :
    (valuesOf
        (add_asset
          (add_asset (smInit false none) (pstr "params") (pstr " q ")
            (pstr "s1") [] [])
          (pstr "params") (pstr "q") (pstr "s2") [] [])
        (pstr "params")).count (pyStrip (pstr " q ")) = 1 :=
  C10_strip_dedup (smInit false none) (pstr "params") (pstr " q ") (pstr "q")
    (pstr "s1") (pstr "s2") [] [] [] [] (by decide) (by decide) (by decide)
    (by decide) (Or.inl ⟨by decide, by decide⟩)

/-! ## Claim C5 -/

/-- C5: deduplication in the asset store.  The invariant `DedupInv` —
each value occurs in at most one record per category, with the seen-set
holding exactly the recorded dedup keys — holds initially and is
preserved by every `add_asset` call; and an `add_asset` whose (stripped)
value is already recorded in the category returns with the state
completely unchanged.  Runs of concurrent `add` calls are serialized by
the `StateManager` lock, so any interleaving is a sequence of these
steps. -/
theorem C5_dedup_invariant :
    (∀ (vb : Bool) (fl : Option (List PStr)), DedupInv (smInit vb fl)) ∧
    (∀ (sm : SMState) (cat v src t₁ t₂ : PStr), DedupInv sm →
      DedupInv (add_asset sm cat v src t₁ t₂) ∧
      (pyStrip v ∈ valuesOf sm cat → add_asset sm cat v src t₁ t₂ = sm)) := by
  constructor
  · intro vb fl cat
    constructor
    · simp [valuesOf, smInit, alGet]
    · intro v; simp [valuesOf, smInit, alGet]
  · intro sm cat v src t₁ t₂ hInv
    have hnoop : pyStrip v ∈ valuesOf sm cat →
        add_asset sm cat v src t₁ t₂ = sm := by
      intro hmem
      exact add_asset_noop sm cat v src t₁ t₂
        (Or.inr (Or.inr (((hInv cat).2 (pyStrip v)).mpr hmem)))
    refine ⟨?_, hnoop⟩
    by_cases hall : allowed sm cat
    · by_cases hg : v = [] ∨ 2000 < v.length
      · rw [add_asset_noop sm cat v src t₁ t₂ (Or.inr (Or.inl hg))]
        exact hInv
      · by_cases hkey : (cat ++ ':' :: pyStrip v) ∈ alGet sm.seen_values cat []
        · rw [add_asset_noop sm cat v src t₁ t₂ (Or.inr (Or.inr hkey))]
          exact hInv
        · have hv : v ≠ [] := fun h => hg (Or.inl h)
          have hlen : ¬2000 < v.length := fun h => hg (Or.inr h)
          have hfresh := add_asset_fresh sm cat v src t₁ t₂ hall hv hlen hkey
          have hvals := add_asset_values_fresh sm cat v src t₁ t₂ hall hv hlen hkey
          have hwnot : pyStrip v ∉ valuesOf sm cat := by
            intro hmem
            exact hkey (((hInv cat).2 (pyStrip v)).mpr hmem)
          intro cat'
          by_cases hc : cat' = cat
          · subst hc
            constructor
            · rw [hvals]
              simp only [List.nodup_append, List.nodup_singleton, true_and]
              refine ⟨(hInv cat').1, ?_⟩
              intro a ha hb
              simp at hb
              exact hwnot (hb ▸ ha)
            · intro v'
              rw [hvals, hfresh.2]
              simp only [List.mem_append, List.mem_singleton]
              constructor
              · rintro (h | h)
                · exact Or.inl (((hInv cat').2 v').mp h)
                · right
                  have h' := List.append_cancel_left h
                  injection h'
              · rintro (h | h)
                · exact Or.inl (((hInv cat').2 v').mpr h)
                · right; rw [h]
          · constructor
            · rw [show valuesOf (add_asset sm cat v src t₁ t₂) cat' =
                  valuesOf sm cat' from valuesOf_ne sm cat cat' v src t₁ t₂ hc]
              exact (hInv cat').1
            · intro v'
              rw [show valuesOf (add_asset sm cat v src t₁ t₂) cat' =
                  valuesOf sm cat' from valuesOf_ne sm cat cat' v src t₁ t₂ hc,
                add_asset_seen_ne sm cat cat' v src t₁ t₂ hc]
              exact (hInv cat').2 v'
    · rw [add_asset_noop sm cat v src t₁ t₂ (Or.inl hall)]
      exact hInv

/-- C5, witness: a second add of an already-seen value (up to stripping)
leaves a concrete store unchanged, applying the theorem at a concrete
state. -/
theorem C5_dedup_invariant_witness :
    add_asset
      (add_asset (smInit false none) (pstr "emails") (pstr "a@b.co")
        (pstr "s1") [] [])
      (pstr "emails") (pstr " a@b.co ") (pstr "s2") [] [] =
      add_asset (smInit false none) (pstr "emails") (pstr "a@b.co")
        (pstr "s1") [] [] := by
  have h0 := C5_dedup_invariant.1 false none
  have h1 := (C5_dedup_invariant.2 (smInit false none) (pstr "emails")
    (pstr "a@b.co") (pstr "s1") [] [] h0).1
  exact (C5_dedup_invariant.2 _ (pstr "emails") (pstr " a@b.co ")
    (pstr "s2") [] [] h1).2 (by decide)

/-! ## Claim C6 -/

/-- C6, counterexample.  The claim says a worker whose fetch returned
status ≥ 400 continues without running any extractor; but in the source
`if content:` is not guarded by the status check, so a 404 whose body was
decoded (any textual content type) *is* handed to `process_page`, i.e.
the extractors run on it. -/
theorem C6_counterexample :
    (workerHandle 404 (some (pstr "<a href=/x>a@b.co</a>"))).failedInc = 1 ∧
    (workerHandle 404 (some (pstr "<a href=/x>a@b.co</a>"))).pagesProcessed =
      [pstr "<a href=/x>a@b.co</a>"] := by
  constructor <;> rfl

/-- C6, amended: for a fetch with status ≥ 400 the worker increments
`urls_failed` (not `urls_processed`) and still runs the extractors
(`process_page`) whenever the fetched body is truthy; extraction is
skipped only when the body is `None` or empty — independent of the
status. -/
theorem C6_failed_still_extracts (status : Nat) (content : Option PStr)
    (h : 400 ≤ status) :
    (workerHandle status content).failedInc = 1 ∧
    (workerHandle status content).processedInc = 0 ∧
    ((workerHandle status content).pagesProcessed = [] ↔
      content = none ∨ content = some []) := by
  have hs : (400 ≤ status ∨ status = 0) = True := by simp [h]
  refine ⟨?_, ?_, ?_⟩
  · simp [workerHandle, hs]
  · simp [workerHandle, hs]
  · cases content with
    | none => simp [workerHandle]
    | some t =>
      by_cases ht : t = [] <;> simp [workerHandle, ht]

/-- C6, witness for the amended theorem. -/
theorem C6_failed_still_extracts_witness :
    (workerHandle 404 (some (pstr "x"))).failedInc = 1 ∧
    (workerHandle 404 (some (pstr "x"))).processedInc = 0 ∧
    ((workerHandle 404 (some (pstr "x"))).pagesProcessed = [] ↔
      (some (pstr "x") : Option PStr) = none ∨ some (pstr "x") = some []) :=
  C6_failed_still_extracts 404 (some (pstr "x")) (by norm_num)

/-! ## Claim C7 -/

theorem startsWith_decomp (s p : PStr) (h : startsWith s p = true) :
    s = p ++ s.drop p.length := by
  unfold startsWith at h
  simp only [decide_eq_true_eq] at h
  conv_lhs => rw [← List.take_append_drop p.length s]
  rw [h]

/-- Every character an `urlRegexTail` match contains is allowed. -/
theorem urlRegexTail_chars (r : PStr) (h : urlRegexTail r = true) :
    ∀ c ∈ r, regexAllowedChar c = true := by
  unfold urlRegexTail at h
  simp only [Bool.decide_and, Bool.and_eq_true, decide_eq_true_eq] at h
  intro c hc
  exact List.all_eq_true.mp h.1 c hc

theorem isAsciiAlpha_allowed (c : Char) (h : isAsciiAlpha c = true) :
    regexAllowedChar c = true := by
  unfold isAsciiAlpha at h
  unfold regexAllowedChar isPySpace
  simp only [Bool.decide_or, Bool.decide_and, Bool.or_eq_true,
    Bool.and_eq_true, decide_eq_true_eq] at h ⊢
  omega

/-- C7, amended (part 1 is the regex guard that *does* exist): every
string the quoted-URL regex can capture consists solely of characters
outside `"`, `'`, backtick and whitespace — so whitespace-bearing
matches are rejected; but `{`, `}` and `$` are allowed (part 2 shows a
brace- and dollar-bearing capture), so no brace/dollar guard exists. -/
theorem C7_capture_chars :
    (∀ s, urlRegexCapture s = true →
      ∀ c ∈ s, regexAllowedChar c = true) ∧
    urlRegexCapture (pstr "/a\x7bb\x7d$c") = true := by
  constructor
  · intro s h c hc
    unfold urlRegexCapture at h
    simp only [decide_eq_true_eq, Bool.or_eq_true] at h
    rcases h with h | h
    · unfold urlRegexAbs at h
      simp only [Bool.decide_and, Bool.decide_or, Bool.or_eq_true,
        Bool.and_eq_true, decide_eq_true_eq] at h
      rcases h with ⟨h1, h2, h3, h4⟩ | ⟨h1, h2⟩
      · -- the `scheme://`-prefixed alternative
        have hs : s = s.take (s.takeWhile isAsciiAlpha).length ++
            s.drop (s.takeWhile isAsciiAlpha).length :=
          (List.take_append_drop _ s).symm
        rcases List.mem_append.mp (hs ▸ hc) with hc1 | hc2
        · have htk : s.take (s.takeWhile isAsciiAlpha).length =
              s.takeWhile isAsciiAlpha :=
            (List.prefix_iff_eq_take.mp (List.takeWhile_prefix _)).symm
          rw [htk] at hc1
          exact isAsciiAlpha_allowed c (List.mem_takeWhile_imp hc1)
        · have hdec := startsWith_decomp _ _ h3
          rw [hdec] at hc2
          rcases List.mem_append.mp hc2 with hc3 | hc4
          · -- one of `:`, `/`, `/`
            fin_cases hc3 <;> decide
          · rw [show (pstr "://").length = 3 from rfl, List.drop_drop] at hc4
            exact urlRegexTail_chars _ h4 c hc4
      · -- the protocol-relative `//` alternative
        have hdec := startsWith_decomp _ _ h1
        rw [hdec] at hc
        rcases List.mem_append.mp hc with hc3 | hc4
        · fin_cases hc3 <;> decide
        · rw [show (pstr "//").length = 2 from rfl] at hc4
          exact urlRegexTail_chars _ h2 c hc4
    · unfold urlRegexRel at h
      simp only [Bool.decide_and, Bool.decide_or, Bool.and_eq_true,
        Bool.or_eq_true, decide_eq_true_eq] at h
      exact List.all_eq_true.mp h.2 c hc
  · decide

/-- C7, witness for the amended theorem (a concrete capture and its
character guarantee). -/
theorem C7_capture_chars_witness :
    regexAllowedChar 'x' = true ∧
    urlRegexCapture (pstr "/a\x7bb\x7d$c") = true :=
  ⟨C7_capture_chars.1 (pstr "/x") (by decide) 'x' (by decide),
    C7_capture_chars.2⟩

/-- C7, counterexample.  The claim says the text-regex extractor rejects
every quoted match containing `{`, `}` or `$`, and that no such string is
admitted to the frontier or recorded as an endpoint.  But the regex's
character class `[^"'`\s]` admits braces and dollars, and a captured
`https://x.ab/c{d}` (in scope for `ab`) is both pushed onto the frontier
queue and recorded in `endpoints` by `scan_text_content`'s URL loop. -/
theorem C7_counterexample :
    urlRegexCapture (pstr "https://x.ab/c\x7bd\x7d") = true ∧
    Char.ofNat 123 ∈ pstr "https://x.ab/c\x7bd\x7d" ∧
    (pstr "https://x.ab/c\x7bd\x7d", 3, pstr "https://x.ab/") ∈
      (scanTextUrlStep ⟨smInit false none, [], [], pstr "ab", 3⟩
        (pstr "https://x.ab/c\x7bd\x7d") (pstr "https://x.ab/") []).queue ∧
    pstr "https://x.ab/c\x7bd\x7d" ∈
      valuesOf
        (scanTextUrlStep ⟨smInit false none, [], [], pstr "ab", 3⟩
          (pstr "https://x.ab/c\x7bd\x7d") (pstr "https://x.ab/") []).sm
        (pstr "endpoints") := by
  exact ⟨by decide, by decide, by decide, by decide⟩

/-! ## Claim C3 -/

theorem foldl_add_asset_assets_ne (l : List PStr) (s : SMState)
    (cat cat' src now : PStr) (h : cat' ≠ cat) :
    alGet (l.foldl (fun st d => add_asset st cat d src now now) s).assets
      cat' [] = alGet s.assets cat' [] := by
  induction l generalizing s with
  | nil => rfl
  | cons d rest ih =>
    simp only [List.foldl_cons]
    rw [ih, add_asset_assets_ne _ _ _ _ _ _ _ h]

theorem foldl_add_asset_seen_ne (l : List PStr) (s : SMState)
    (cat cat' src now : PStr) (h : cat' ≠ cat) :
    alGet (l.foldl (fun st d => add_asset st cat d src now now) s).seen_values
      cat' [] = alGet s.seen_values cat' [] := by
  induction l generalizing s with
  | nil => rfl
  | cons d rest ih =>
    simp only [List.foldl_cons]
    rw [ih, add_asset_seen_ne _ _ _ _ _ _ _ h]

theorem foldl_add_asset_filters (l : List PStr) (s : SMState)
    (cat src now : PStr) :
    (l.foldl (fun st d => add_asset st cat d src now now) s).filters =
      s.filters := by
  induction l generalizing s with
  | nil => rfl
  | cons d rest ih =>
    simp only [List.foldl_cons]
    rw [ih, add_asset_filters]

theorem add_url_derivatives_assets_ne (s : SMState) (url src now cat' : PStr)
    (h1 : cat' ≠ pstr "directories") (h2 : cat' ≠ pstr "params") :
    alGet (add_url_derivatives s url src now).assets cat' [] =
      alGet s.assets cat' [] := by
  unfold add_url_derivatives
  rw [foldl_add_asset_assets_ne _ _ _ _ _ _ h2,
    foldl_add_asset_assets_ne _ _ _ _ _ _ h1]

theorem add_url_derivatives_seen_ne (s : SMState) (url src now cat' : PStr)
    (h1 : cat' ≠ pstr "directories") (h2 : cat' ≠ pstr "params") :
    alGet (add_url_derivatives s url src now).seen_values cat' [] =
      alGet s.seen_values cat' [] := by
  unfold add_url_derivatives
  rw [foldl_add_asset_seen_ne _ _ _ _ _ _ h2,
    foldl_add_asset_seen_ne _ _ _ _ _ _ h1]

theorem add_url_derivatives_filters (s : SMState) (url src now : PStr) :
    (add_url_derivatives s url src now).filters = s.filters := by
  unfold add_url_derivatives
  rw [foldl_add_asset_filters, foldl_add_asset_filters]

theorem allowed_of_none (s : SMState) (cat : PStr) (h : s.filters = none) :
    allowed s cat = true := by
  unfold allowed; rw [h]

/-- The shape `enqueue` takes on a fresh, in-scope URL whose path has an
ignored extension: endpoints add, derivatives, visited insertion, files
add, derivatives — and no queue push. -/
theorem enqueue_ignored_ext (c : CrawlSt) (url src now n : PStr) (depth : Nat)
    (hd : ¬c.max_depth < depth)
    (hn : normalize_url url [] = some n)
    (hscope : is_in_scope c.base_domain n = true)
    (hvis : splitHash n ∉ c.visited)
    (hva : is_valid_asset (splitHash n) = some false) :
    enqueue c url depth src now =
      { c with
        sm := add_url_derivatives
          (add_asset
            (add_url_derivatives
              (add_asset c.sm (pstr "endpoints") (splitHash n) src now now)
              n src now)
            (pstr "files") (splitHash n) src now now)
          (splitHash n) src now,
        visited := c.visited ++ [splitHash n] } := by
  unfold enqueue
  rw [if_neg hd, hn]
  simp only [hscope, if_true, Bool.not_true, Bool.false_eq_true, if_false,
    ite_true, ite_false, hvis, hva]
  simp [hvis]

/-- C3, counterexample.  The claim says an in-scope ignored-extension URL
never appears in `endpoints`; but `enqueue` records *every* in-scope URL
in `endpoints` (line 393) before the extension check, so a `.png` lands
in `endpoints` (and in `files`, and is never queued). -/
theorem C3_counterexample :
    pstr "https://h/logo.png" ∈
      valuesOf (enqueue ⟨smInit false none, [], [], pstr "h", 3⟩
        (pstr "https://h/logo.png") 0 (pstr "seed") []).sm (pstr "endpoints") ∧
    pstr "https://h/logo.png" ∈
      valuesOf (enqueue ⟨smInit false none, [], [], pstr "h", 3⟩
        (pstr "https://h/logo.png") 0 (pstr "seed") []).sm (pstr "files") ∧
    (enqueue ⟨smInit false none, [], [], pstr "h", 3⟩
      (pstr "https://h/logo.png") 0 (pstr "seed") []).queue = [] := by
  exact ⟨by decide, by decide, by decide⟩

/-- C3, amended: a discovered in-scope URL with an ignored extension,
fresh for this run, is never enqueued for fetching and is added to the
`files` category — but it is *also* recorded in the `endpoints` category
(in-scope URLs are always recorded there, regardless of extension). -/
theorem C3_ignored_extension (c : CrawlSt) (url src now n : PStr) (depth : Nat)
    (hd : depth ≤ c.max_depth)
    (hn : normalize_url url [] = some n)
    (hscope : is_in_scope c.base_domain n = true)
    (hvis : splitHash n ∉ c.visited)
    (hva : is_valid_asset (splitHash n) = some false)
    (hfilters : c.sm.filters = none)
    (hne : splitHash n ≠ [])
    (hlen : ¬2000 < (splitHash n).length)
    (hkeyE : (pstr "endpoints" ++ ':' :: pyStrip (splitHash n)) ∉
      alGet c.sm.seen_values (pstr "endpoints") [])
    (hkeyF : (pstr "files" ++ ':' :: pyStrip (splitHash n)) ∉
      alGet c.sm.seen_values (pstr "files") []) :
    (enqueue c url depth src now).queue = c.queue ∧
    pyStrip (splitHash n) ∈
      valuesOf (enqueue c url depth src now).sm (pstr "endpoints") ∧
    pyStrip (splitHash n) ∈
      valuesOf (enqueue c url depth src now).sm (pstr "files") := by
  have hd' : ¬c.max_depth < depth := by omega
  rw [enqueue_ignored_ext c url src now n depth hd' hn hscope hvis hva]
  set w := splitHash n with hw
  set sm₁ := add_asset c.sm (pstr "endpoints") w src now now with hsm₁
  set sm₁' := add_url_derivatives sm₁ n src now with hsm₁'
  set sm₂ := add_asset sm₁' (pstr "files") w src now now with hsm₂
  set sm₂' := add_url_derivatives sm₂ w src now with hsm₂'
  refine ⟨rfl, ?_, ?_⟩
  · -- endpoints membership survives the later, different-category adds
    have hmem₁ : pyStrip w ∈ valuesOf sm₁ (pstr "endpoints") := by
      rw [hsm₁, add_asset_values_fresh c.sm (pstr "endpoints") w src now now
        (allowed_of_none c.sm _ hfilters) hne hlen hkeyE]
      simp
    show pyStrip w ∈ valuesOf sm₂' (pstr "endpoints")
    unfold valuesOf
    rw [hsm₂', add_url_derivatives_assets_ne _ _ _ _ _ (by decide) (by decide),
      hsm₂, add_asset_assets_ne _ _ _ _ _ _ _ (by decide),
      hsm₁', add_url_derivatives_assets_ne _ _ _ _ _ (by decide) (by decide)]
    exact hmem₁
  · -- files: the seen-set for `files` is untouched before the files add
    have hseen : alGet sm₁'.seen_values (pstr "files") [] =
        alGet c.sm.seen_values (pstr "files") [] := by
      rw [hsm₁', add_url_derivatives_seen_ne _ _ _ _ _ (by decide) (by decide),
        hsm₁, add_asset_seen_ne _ _ _ _ _ _ _ (by decide)]
    have hfil : sm₁'.filters = none := by
      rw [hsm₁', add_url_derivatives_filters, hsm₁, add_asset_filters, hfilters]
    have hmem₂ : pyStrip w ∈ valuesOf sm₂ (pstr "files") := by
      rw [hsm₂, add_asset_values_fresh sm₁' (pstr "files") w src now now
        (allowed_of_none sm₁' _ hfil) hne hlen (hseen ▸ hkeyF)]
      simp
    show pyStrip w ∈ valuesOf sm₂' (pstr "files")
    unfold valuesOf
    rw [hsm₂', add_url_derivatives_assets_ne _ _ _ _ _ (by decide) (by decide)]
    exact hmem₂

/-- C3, witness for the amended theorem. -/
theorem C3_ignored_extension_witness :
    (enqueue ⟨smInit false none, [], [], pstr "h", 3⟩
      (pstr "https://h/a.pdf") 1 (pstr "seed") []).queue = [] ∧
    pyStrip (splitHash (pstr "https://h/a.pdf")) ∈
      valuesOf (enqueue ⟨smInit false none, [], [], pstr "h", 3⟩
        (pstr "https://h/a.pdf") 1 (pstr "seed") []).sm (pstr "endpoints") ∧
    pyStrip (splitHash (pstr "https://h/a.pdf")) ∈
      valuesOf (enqueue ⟨smInit false none, [], [], pstr "h", 3⟩
        (pstr "https://h/a.pdf") 1 (pstr "seed") []).sm (pstr "files") :=
  C3_ignored_extension ⟨smInit false none, [], [], pstr "h", 3⟩
    (pstr "https://h/a.pdf") (pstr "seed") [] (pstr "https://h/a.pdf") 1
    (by norm_num) (by decide) (by decide) (by decide) (by decide) rfl
    (by decide) (by decide) (by decide) (by decide)

/-! ## Claim C1 -/

/-- Any single `enqueue` call either leaves queue and visited set alone,
or admits one fresh key to the visited set and possibly pushes exactly
that key (with the call's depth and source) onto the queue. -/
theorem enqueue_shape (c : CrawlSt) (url : PStr) (depth : Nat) (src now : PStr) :
    ((enqueue c url depth src now).queue = c.queue ∧
     (enqueue c url depth src now).visited = c.visited) ∨
    (∃ k, k ∉ c.visited ∧
      (enqueue c url depth src now).visited = c.visited ++ [k] ∧
      ((enqueue c url depth src now).queue = c.queue ∨
       (enqueue c url depth src now).queue = c.queue ++ [(k, depth, src)])) := by
  unfold enqueue
  by_cases hd : c.max_depth < depth
  · rw [if_pos hd]; left; exact ⟨rfl, rfl⟩
  rw [if_neg hd]
  cases hn : normalize_url url [] with
  | none => left; exact ⟨rfl, rfl⟩
  | some n =>
    dsimp only
    by_cases hsc : is_in_scope c.base_domain n = true
    · rw [if_pos hsc, if_neg (by simp [hsc])]
      dsimp only
      by_cases hvis : splitHash n ∈ c.visited
      · rw [if_pos hvis]; left; exact ⟨rfl, rfl⟩
      · rw [if_neg hvis]
        refine Or.inr ⟨splitHash n, hvis, ?_⟩
        cases hva : is_valid_asset (splitHash n) with
        | none => exact ⟨rfl, Or.inl rfl⟩
        | some valid =>
          simp only []
          by_cases hv : valid = true
          · rw [if_neg (by simp [hv])]
            cases hp : urlparse (splitHash n) with
            | none => exact ⟨rfl, Or.inr rfl⟩
            | some parsed =>
              simp only []
              by_cases hsub : parsed.netloc ≠ c.base_domain ∧
                  endsWith parsed.netloc ('.' :: c.base_domain) = true
              · rw [if_pos hsub]; exact ⟨rfl, Or.inr rfl⟩
              · rw [if_neg hsub]; exact ⟨rfl, Or.inr rfl⟩
          · rw [if_pos (by simp [hv])]
            exact ⟨rfl, Or.inl rfl⟩
    · rw [if_neg hsc, if_pos (by simp [hsc])]
      left; exact ⟨rfl, rfl⟩

theorem enqueue_visited_mono (c : CrawlSt) (call : EnqCall) (u : PStr)
    (h : u ∈ c.visited) : u ∈ (enqueueStep c call).visited := by
  rcases enqueue_shape c call.url call.depth call.source call.now with
    ⟨_, hv⟩ | ⟨k, _, hv, _⟩ <;>
    unfold enqueueStep <;> rw [hv] <;> simp [h]

/-- The queue entries one `enqueue` call pushes: none, or exactly one,
whose key was not yet visited and is visited afterwards. -/
theorem enqueue_pushes_step (c : CrawlSt) (call : EnqCall) :
    (enqueueStep c call).queue.drop c.queue.length = [] ∨
    ∃ k, k ∉ c.visited ∧ k ∈ (enqueueStep c call).visited ∧
      (enqueueStep c call).queue.drop c.queue.length =
        [(k, call.depth, call.source)] := by
  rcases enqueue_shape c call.url call.depth call.source call.now with
    ⟨hq, _⟩ | ⟨k, hk, hv, hq | hq⟩
  · left; unfold enqueueStep; rw [hq, List.drop_length]
  · left; unfold enqueueStep; rw [hq, List.drop_length]
  · right
    refine ⟨k, hk, ?_, ?_⟩
    · unfold enqueueStep; rw [hv]; simp
    · unfold enqueueStep; rw [hq, List.drop_left]

/-- Once a key is in the visited set, no later `enqueue` in the run can
push it again. -/
theorem pushes_ne_of_visited (c : CrawlSt) (calls : List EnqCall) (u : PStr)
    (h : u ∈ c.visited) :
    ∀ e ∈ enqueuePushes c calls, e.1 ≠ u := by
  induction calls generalizing c with
  | nil => intro e he; simp [enqueuePushes] at he
  | cons call rest ih =>
    intro e he
    unfold enqueuePushes at he
    rcases List.mem_append.mp he with hd | ht
    · rcases enqueue_pushes_step c call with hnil | ⟨k, hk, _, hdelta⟩
      · rw [hnil] at hd; simp at hd
      · rw [hdelta] at hd
        simp only [List.mem_singleton] at hd
        rw [hd]
        intro hku
        apply hk
        have hku' : k = u := hku
        rw [hku']
        exact h
    · exact ih (enqueueStep c call) (enqueue_visited_mono c call u h) e ht

theorem pushes_count_le_one (c : CrawlSt) (calls : List EnqCall) (u : PStr) :
    ((enqueuePushes c calls).filter (fun e => e.1 = u)).length ≤ 1 := by
  induction calls generalizing c with
  | nil => simp [enqueuePushes]
  | cons call rest ih =>
    unfold enqueuePushes
    rw [List.filter_append, List.length_append]
    rcases enqueue_pushes_step c call with hnil | ⟨k, hk, hkv, hdelta⟩
    · rw [hnil]
      simpa using ih (enqueueStep c call)
    · rw [hdelta]
      by_cases hku : k = u
      · have hrest : ∀ e ∈ enqueuePushes (enqueueStep c call) rest, e.1 ≠ u :=
          pushes_ne_of_visited _ rest u (hku ▸ hkv)
        have hnilrest : (enqueuePushes (enqueueStep c call) rest).filter
            (fun e => e.1 = u) = [] := by
          apply List.filter_eq_nil_iff.mpr
          intro e he
          simp [hrest e he]
        rw [hnilrest]
        simp [hku]
      · have hdel : ((([(k, call.depth, call.source)] :
            List (PStr × Nat × PStr))).filter (fun e => e.1 = u)) = [] := by
          simp [hku]
        rw [hdel]
        simpa using ih (enqueueStep c call)

/-- A duplicate `enqueue` (same admission key, already visited) leaves
queue and visited set unchanged. -/
theorem enqueue_dup_noop (c : CrawlSt) (url : PStr) (depth : Nat)
    (src now n : PStr) (hn : normalize_url url [] = some n)
    (hvis : splitHash n ∈ c.visited) :
    (enqueue c url depth src now).queue = c.queue ∧
    (enqueue c url depth src now).visited = c.visited := by
  unfold enqueue
  by_cases hd : c.max_depth < depth
  · rw [if_pos hd]; exact ⟨rfl, rfl⟩
  rw [if_neg hd]
  simp only [hn]
  by_cases hsc : is_in_scope c.base_domain n = true
  · rw [if_pos hsc, if_neg (by simp [hsc])]
    dsimp only
    rw [if_pos hvis]
    exact ⟨rfl, rfl⟩
  · rw [if_neg hsc, if_pos (by simp [hsc])]
    exact ⟨rfl, rfl⟩

/-- C1: at-most-once admission.  (i) Any entry present in the queue after
an `enqueue` was either already queued or its URL key was freshly
inserted into the visited set during that call (insertion precedes /
accompanies every push); (ii) an `enqueue` whose raw URL normalizes to an
already-visited admission key leaves both the queue and the visited set
unchanged; (iii) over any run of `enqueue` calls from any state, each
admission key is pushed onto the frontier at most once. -/
theorem C1_at_most_once_admission :
    (∀ (c : CrawlSt) (call : EnqCall) (e : PStr × Nat × PStr),
      e ∈ (enqueueStep c call).queue →
      e ∈ c.queue ∨ (e.1 ∉ c.visited ∧ e.1 ∈ (enqueueStep c call).visited)) ∧
    (∀ (c : CrawlSt) (url : PStr) (depth : Nat) (src now n : PStr),
      normalize_url url [] = some n → splitHash n ∈ c.visited →
      (enqueue c url depth src now).queue = c.queue ∧
      (enqueue c url depth src now).visited = c.visited) ∧
    (∀ (c : CrawlSt) (calls : List EnqCall) (u : PStr),
      ((enqueuePushes c calls).filter (fun e => e.1 = u)).length ≤ 1) := by
  refine ⟨?_, enqueue_dup_noop, pushes_count_le_one⟩
  intro c call e he
  rcases enqueue_shape c call.url call.depth call.source call.now with
    ⟨hq, _⟩ | ⟨k, hk, hv, hq | hq⟩
  · left; unfold enqueueStep at he; rw [hq] at he; exact he
  · left; unfold enqueueStep at he; rw [hq] at he; exact he
  · unfold enqueueStep at he ⊢
    rw [hq] at he
    rcases List.mem_append.mp he with h1 | h2
    · exact Or.inl h1
    · right
      simp only [List.mem_singleton] at h2
      rw [h2]
      refine ⟨hk, ?_⟩
      rw [hv]
      simp

/-- C1, witness: a concrete duplicate admission is a no-op, and a run
that enqueues the same URL twice pushes it at most once. -/
theorem C1_at_most_once_admission_witness :
    ((enqueue ⟨smInit false none, [pstr "http://h/"], [], pstr "h", 3⟩
        (pstr "http://h/") 0 (pstr "seed") []).queue =
      (⟨smInit false none, [pstr "http://h/"], [], pstr "h", 3⟩ : CrawlSt).queue ∧
     (enqueue ⟨smInit false none, [pstr "http://h/"], [], pstr "h", 3⟩
        (pstr "http://h/") 0 (pstr "seed") []).visited =
      (⟨smInit false none, [pstr "http://h/"], [], pstr "h", 3⟩ : CrawlSt).visited) ∧
    ((enqueuePushes ⟨smInit false none, [], [], pstr "h", 3⟩
        [⟨pstr "http://h/", 0, pstr "seed", []⟩,
         ⟨pstr "http://h/", 0, pstr "seed", []⟩]).filter
      (fun e => e.1 = pstr "http://h/")).length ≤ 1 :=
  ⟨C1_at_most_once_admission.2.1
      ⟨smInit false none, [pstr "http://h/"], [], pstr "h", 3⟩
      (pstr "http://h/") 0 (pstr "seed") [] (pstr "http://h/")
      (by decide) (by decide),
   C1_at_most_once_admission.2.2 ⟨smInit false none, [], [], pstr "h", 3⟩
      [⟨pstr "http://h/", 0, pstr "seed", []⟩,
       ⟨pstr "http://h/", 0, pstr "seed", []⟩] (pstr "http://h/")⟩

/-! ## Claim C2 -/

theorem ScopeInv_add_other (bd : PStr) (sm : SMState) (cat v src t₁ t₂ : PStr)
    (h1 : cat ≠ pstr "endpoints") (h2 : cat ≠ pstr "external_endpoints")
    (hInv : ScopeInv bd sm) : ScopeInv bd (add_asset sm cat v src t₁ t₂) := by
  constructor
  · rw [valuesOf_ne sm cat (pstr "endpoints") v src t₁ t₂ (Ne.symm h1)]
    exact hInv.1
  · rw [valuesOf_ne sm cat (pstr "external_endpoints") v src t₁ t₂ (Ne.symm h2)]
    exact hInv.2

theorem ScopeInv_add_endpoints (bd : PStr) (sm : SMState) (u src t₁ t₂ : PStr)
    (hu : is_in_scope bd u = true) (hInv : ScopeInv bd sm) :
    ScopeInv bd (add_asset sm (pstr "endpoints") (splitHash u) src t₁ t₂) := by
  constructor
  · intro v hv
    rcases add_asset_values_cases sm (pstr "endpoints") (splitHash u) src t₁ t₂
      with hc | hc
    · exact hInv.1 v (hc ▸ hv)
    · rw [hc] at hv
      rcases List.mem_append.mp hv with h | h
      · exact hInv.1 v h
      · simp only [List.mem_singleton] at h
        exact ⟨u, h, hu⟩
  · rw [valuesOf_ne sm (pstr "endpoints") (pstr "external_endpoints")
      (splitHash u) src t₁ t₂ (by decide)]
    exact hInv.2

theorem ScopeInv_add_external (bd : PStr) (sm : SMState) (u src t₁ t₂ : PStr)
    (hu : is_in_scope bd u = false) (hInv : ScopeInv bd sm) :
    ScopeInv bd
      (add_asset sm (pstr "external_endpoints") (splitHash u) src t₁ t₂) := by
  constructor
  · rw [valuesOf_ne sm (pstr "external_endpoints") (pstr "endpoints")
      (splitHash u) src t₁ t₂ (by decide)]
    exact hInv.1
  · intro v hv
    rcases add_asset_values_cases sm (pstr "external_endpoints") (splitHash u)
      src t₁ t₂ with hc | hc
    · exact hInv.2 v (hc ▸ hv)
    · rw [hc] at hv
      rcases List.mem_append.mp hv with h | h
      · exact hInv.2 v h
      · simp only [List.mem_singleton] at h
        exact ⟨u, h, hu⟩

theorem ScopeInv_derivatives (bd : PStr) (sm : SMState) (url src now : PStr)
    (hInv : ScopeInv bd sm) :
    ScopeInv bd (add_url_derivatives sm url src now) := by
  constructor
  · show ∀ v ∈ valuesOf (add_url_derivatives sm url src now) (pstr "endpoints"), _
    unfold valuesOf
    rw [add_url_derivatives_assets_ne _ _ _ _ _ (by decide) (by decide)]
    exact hInv.1
  · show ∀ v ∈ valuesOf (add_url_derivatives sm url src now)
      (pstr "external_endpoints"), _
    unfold valuesOf
    rw [add_url_derivatives_assets_ne _ _ _ _ _ (by decide) (by decide)]
    exact hInv.2

/-- C2, counterexample.  `enqueue("http://h #f")` with root domain `h`
yields the canonical URL `"http://h "` (trailing space inside the
pre-fragment URL), whose netloc `"h "` fails the scope check — so it is
recorded in `external_endpoints`; but `add_asset` strips the value to
`"http://h"`, whose host *is* the root domain.  A second
`enqueue("http://h")` records the very same value in `endpoints`: the
recorded external value has an in-scope host and the two categories
share a value. -/
theorem C2_counterexample :
    pstr "http://h" ∈
      valuesOf (enqueue (enqueue ⟨smInit false none, [], [], pstr "h", 3⟩
          (pstr "http://h #f") 0 (pstr "seed") [])
        (pstr "http://h") 0 (pstr "seed") []).sm (pstr "external_endpoints") ∧
    pstr "http://h" ∈
      valuesOf (enqueue (enqueue ⟨smInit false none, [], [], pstr "h", 3⟩
          (pstr "http://h #f") 0 (pstr "seed") [])
        (pstr "http://h") 0 (pstr "seed") []).sm (pstr "endpoints") ∧
    is_in_scope (pstr "h") (pstr "http://h") = true := by
  exact ⟨by decide, by decide, by decide⟩

/-- C2, amended: `ScopeInv` holds initially and is preserved by every
`enqueue`: every value recorded in `endpoints` is the whitespace-stripped
fragment-stripped form of a URL the scope predicate accepted, and every
value recorded in `external_endpoints` is the stripped form of one it
rejected.  (Because the store strips values *after* the scope check, the
stored values themselves may cross the scope line, and the categories
need not be disjoint — the counterexample exhibits this.) -/
theorem C2_scope_closure :
    (∀ (bd : PStr) (vb : Bool) (fl : Option (List PStr)),
      ScopeInv bd (smInit vb fl)) ∧
    (∀ (c : CrawlSt) (url : PStr) (depth : Nat) (src now : PStr),
      ScopeInv c.base_domain c.sm →
      ScopeInv c.base_domain (enqueue c url depth src now).sm) := by
  constructor
  · intro bd vb fl
    constructor
    · intro v hv; simp [valuesOf, smInit, alGet] at hv
    · intro v hv; simp [valuesOf, smInit, alGet] at hv
  · intro c url depth src now hInv
    unfold enqueue
    by_cases hd : c.max_depth < depth
    · rw [if_pos hd]; exact hInv
    rw [if_neg hd]
    cases hn : normalize_url url [] with
    | none => exact hInv
    | some n =>
      dsimp only
      by_cases hsc : is_in_scope c.base_domain n = true
      · rw [if_pos hsc, if_neg (by simp [hsc])]
        dsimp only
        have hInv₁ : ScopeInv c.base_domain
            (add_url_derivatives
              (add_asset c.sm (pstr "endpoints") (splitHash n) src now now)
              n src now) :=
          ScopeInv_derivatives _ _ _ _ _
            (ScopeInv_add_endpoints _ _ _ _ _ _ hsc hInv)
        by_cases hvis : splitHash n ∈ c.visited
        · rw [if_pos hvis]; exact hInv₁
        · rw [if_neg hvis]
          cases hva : is_valid_asset (splitHash n) with
          | none => exact hInv₁
          | some valid =>
            simp only []
            by_cases hv : valid = true
            · rw [if_neg (by simp [hv])]
              cases hp : urlparse (splitHash n) with
              | none => exact hInv₁
              | some parsed =>
                simp only []
                by_cases hsub : parsed.netloc ≠ c.base_domain ∧
                    endsWith parsed.netloc ('.' :: c.base_domain) = true
                · rw [if_pos hsub]
                  exact ScopeInv_add_other _ _ _ _ _ _ _ (by decide)
                    (by decide) hInv₁
                · rw [if_neg hsub]; exact hInv₁
            · rw [if_pos (by simp [hv])]
              exact ScopeInv_derivatives _ _ _ _ _
                (ScopeInv_add_other _ _ _ _ _ _ _ (by decide) (by decide) hInv₁)
      · rw [if_neg hsc, if_pos (by simp [hsc])]
        exact ScopeInv_add_external _ _ _ _ _ _
          (Bool.not_eq_true _ ▸ hsc) hInv

/-- C2, witness for the amended theorem: the invariant carried through a
concrete enqueue. -/
theorem C2_scope_closure_witness :
    ScopeInv (pstr "h")
      (enqueue ⟨smInit false none, [], [], pstr "h", 3⟩
        (pstr "http://h/x") 0 (pstr "seed") []).sm :=
  C2_scope_closure.2 ⟨smInit false none, [], [], pstr "h", 3⟩
    (pstr "http://h/x") 0 (pstr "seed") []
    (C2_scope_closure.1 (pstr "h") false none)

theorem endsWith_slash_iff (s : PStr) :
    endsWith s (pstr "/") = true ↔ ∃ y, s = y ++ ['/'] := by
  constructor
  · intro h
    unfold endsWith at h
    simp only [decide_eq_true_eq] at h
    refine ⟨s.take (s.length - 1), ?_⟩
    conv_lhs => rw [← List.take_append_drop (s.length - 1) s]
    rw [show (pstr "/").length = 1 from rfl] at h
    rw [h]
    rfl
  · rintro ⟨y, rfl⟩
    unfold endsWith
    simp only [decide_eq_true_eq, List.length_append, List.length_singleton]
    rw [show y.length + 1 - (pstr "/").length = y.length from rfl]
    rw [List.drop_append_of_le_length (le_refl _)]
    simp
    rfl

theorem segsJoin_append (a b : List PStr) :
    segsJoin (a ++ b) = segsJoin a ++ segsJoin b := by
  induction a with
  | nil => rfl
  | cons s rest ih => simp [segsJoin, ih]

theorem segsJoin_ends (parts : List PStr) (h : parts ≠ []) :
    ∃ y, segsJoin parts = y ++ ['/'] := by
  induction parts with
  | nil => exact absurd rfl h
  | cons s rest ih =>
    cases rest with
    | nil => exact ⟨s, rfl⟩
    | cons s' rest' =>
      obtain ⟨y, hy⟩ := ih (by simp)
      refine ⟨s ++ '/' :: y, ?_⟩
      rw [show segsJoin (s :: s' :: rest') =
        s ++ '/' :: segsJoin (s' :: rest') from rfl, hy]
      simp


theorem splitAll_ne_nil (t : Char) (x : PStr) : splitAll t x ≠ [] := by
  cases x with
  | nil => simp [splitAll]
  | cons c r =>
    unfold splitAll
    by_cases h : c = t
    · simp [h]
    · simp only [h, if_false, ite_false]
      cases hs : splitAll t r <;> simp

theorem splitAll_no_sep (t : Char) (x : PStr) :
    ∀ s ∈ splitAll t x, t ∉ s := by
  induction x with
  | nil => intro s hs; simp [splitAll] at hs; simp [hs]
  | cons c r ih =>
    intro s hs
    unfold splitAll at hs
    by_cases h : c = t
    · simp only [h, if_true, ite_true, List.mem_cons] at hs
      rcases hs with rfl | hs
      · simp
      · exact ih s hs
    · simp only [h, if_false, ite_false] at hs
      cases hsp : splitAll t r with
      | nil => exact absurd hsp (splitAll_ne_nil t r)
      | cons p ps =>
        rw [hsp] at hs
        simp only [List.mem_cons] at hs
        rcases hs with rfl | hs
        · intro hmem
          simp only [List.mem_cons] at hmem
          rcases hmem with rfl | hmem
          · exact h rfl
          · exact ih p (by rw [hsp]; exact List.mem_cons_self p ps) hmem
        · exact ih s (by rw [hsp]; exact List.mem_cons_of_mem p hs)

theorem splitAll_seg (t : Char) (a b : PStr) (ha : t ∉ a) :
    splitAll t (a ++ t :: b) = a :: splitAll t b := by
  induction a with
  | nil => simp [splitAll]
  | cons c r ih =>
    have hc : c ≠ t := fun h => ha (h ▸ List.mem_cons_self c r)
    have hr : t ∉ r := fun h => ha (List.mem_cons_of_mem c h)
    rw [List.cons_append]
    conv_lhs => rw [splitAll]
    simp only [hc, if_false, ite_false]
    rw [ih hr]

theorem containsStr_cons (c : Char) (l pat : PStr) :
    containsStr (c :: l) pat = true ↔
      (startsWith (c :: l) pat = true ∨ containsStr l pat = true) := by
  conv_lhs => rw [containsStr]
  simp [Bool.or_eq_true]

theorem containsStr_of_suffix (pre s pat : PStr)
    (h : containsStr s pat = true) : containsStr (pre ++ s) pat = true := by
  induction pre with
  | nil => exact h
  | cons c r ih =>
    rw [List.cons_append]
    exact (containsStr_cons _ _ _).mpr (Or.inr ih)

theorem startsWith_append (x y pat : PStr) (h : startsWith x pat = true) :
    startsWith (x ++ y) pat = true := by
  unfold startsWith at h ⊢
  simp only [decide_eq_true_eq] at h ⊢
  have hlen : pat.length ≤ x.length := by
    have h2 := congrArg List.length h
    rw [List.length_take] at h2
    omega
  rw [List.take_append_eq_append_take,
    show pat.length - x.length = 0 from by omega, List.take_zero,
    List.append_nil]
  exact h

theorem containsStr_of_self (s pat : PStr) (h : startsWith s pat = true) :
    containsStr s pat = true := by
  cases s with
  | nil =>
    have hp : pat = [] := by
      unfold startsWith at h
      simp only [decide_eq_true_eq] at h
      simpa using h.symm
    subst hp
    decide
  | cons c r =>
    exact (containsStr_cons _ _ _).mpr (Or.inl h)

theorem splitAtLastSlash_decomp (s : PStr) (hin : '/' ∈ s) :
    ∃ w, s = w ++ ['/'] ++ (splitAtLastSlash s).2 ∧
      (splitAtLastSlash s).1 = w ++ ['/'] ∧ '/' ∉ (splitAtLastSlash s).2 := by
  have hrev : '/' ∈ s.reverse := by simpa using hin
  have hdw : s.reverse.dropWhile (· ≠ '/') ≠ [] := by
    intro hnil
    have hall := List.dropWhile_eq_nil_iff.mp hnil
    have := hall '/' hrev
    simp at this
  obtain ⟨d, w', hw⟩ : ∃ d w', s.reverse.dropWhile (· ≠ '/') = d :: w' := by
    cases h : s.reverse.dropWhile (· ≠ '/') with
    | nil => exact absurd h hdw
    | cons d w' => exact ⟨d, w', rfl⟩
  have hd : d = '/' := by
    have hhead := List.head_dropWhile_not (· ≠ '/') s.reverse
    rw [hw] at hhead
    simpa using hhead (by simp)
  subst hd
  have hsplit : s.reverse = s.reverse.takeWhile (· ≠ '/') ++ '/' :: w' := by
    rw [← hw, List.takeWhile_append_dropWhile]
  set T := s.reverse.takeWhile (· ≠ '/') with hT
  have h2 : (splitAtLastSlash s).2 = T.reverse := rfl
  have h1 : (splitAtLastSlash s).1 = s.take (s.length - T.length) := rfl
  have hs2 : s = (w'.reverse ++ ['/']) ++ T.reverse := by
    have hrr := congrArg List.reverse hsplit
    rw [List.reverse_reverse] at hrr
    rw [hrr]
    simp
  have hlen : s.length = w'.length + 1 + T.length := by
    have hl := congrArg List.length hs2
    simp at hl
    omega
  refine ⟨w'.reverse, ?_, ?_, ?_⟩
  · rw [h2]
    conv_lhs => rw [hs2]
  · rw [h1]
    rw [show s.length - T.length = w'.length + 1 from by omega]
    conv_lhs => rw [hs2]
    rw [List.take_append_eq_append_take]
    rw [List.take_of_length_le (by simp)]
    rw [show w'.length + 1 - (w'.reverse ++ ['/']).length = 0 from by simp]
    simp
  · rw [h2]
    intro hmem
    have hmem' := List.mem_takeWhile_imp (List.mem_reverse.mp hmem)
    simp at hmem'

theorem dirs_foldl_eq (parts : List PStr) (acc : PStr) (res : List PStr) :
    (parts.foldl
      (fun st p => (st.1 ++ p ++ ['/'], st.2 ++ [st.1 ++ p ++ ['/']]))
      (acc, res)).2 = res ++ segsAccum acc parts := by
  induction parts generalizing acc res with
  | nil => simp [segsAccum]
  | cons p rest ih =>
    simp only [List.foldl_cons, segsAccum]
    rw [ih]
    simp

theorem mem_segsAccum (parts : List PStr) (acc d : PStr) :
    d ∈ segsAccum acc parts ↔
      ∃ k, k < parts.length ∧ d = acc ++ segsJoin (parts.take (k + 1)) := by
  induction parts generalizing acc with
  | nil => simp [segsAccum]
  | cons p rest ih =>
    simp only [segsAccum, List.mem_cons]
    constructor
    · rintro (rfl | hmem)
      · exact ⟨0, by simp, by simp [segsJoin]⟩
      · obtain ⟨k, hk, hd⟩ := (ih (acc ++ p ++ ['/'])).mp hmem
        refine ⟨k + 1, by simpa using hk, ?_⟩
        rw [hd]
        simp only [List.take_cons, segsJoin]
        simp
    · rintro ⟨k, hk, hd⟩
      cases k with
      | zero =>
        left
        rw [hd]
        simp [segsJoin]
      | succ k' =>
        right
        refine (ih (acc ++ p ++ ['/'])).mpr ⟨k', by simpa using hk, ?_⟩
        rw [hd]
        simp only [List.take_cons, segsJoin]
        simp

theorem ends_slash_tail (y s xr : PStr) (heq : y ++ ['/'] = s ++ '/' :: xr)
    (hxr : xr ≠ []) : ∃ z, xr = z ++ ['/'] := by
  have hlen : y.length + 1 = s.length + 1 + xr.length := by
    have hl := congrArg List.length heq
    simp at hl
    omega
  have hxl : 1 ≤ xr.length := by
    cases xr with
    | nil => exact absurd rfl hxr
    | cons a b => simp
  have hsy : s.length + 1 ≤ y.length := by omega
  have hdrop := congrArg (List.drop (s.length + 1)) heq
  rw [List.drop_append_eq_append_drop,
    show s.length + 1 - y.length = 0 from by omega, List.drop_zero] at hdrop
  rw [List.drop_append_eq_append_drop,
    List.drop_eq_nil_of_le (show s.length ≤ s.length + 1 from by omega),
    show s.length + 1 - s.length = 1 from by omega] at hdrop
  simp only [List.nil_append, List.drop_succ_cons, List.drop_zero] at hdrop
  exact ⟨y.drop (s.length + 1), hdrop.symm⟩

theorem segsJoin_prefix_char (parts : List PStr)
    (hns : ∀ x ∈ parts, '/' ∉ x) (d' : PStr) (hne : d' ≠ [])
    (hpre : ∃ t, d' ++ t = segsJoin parts)
    (hend : endsWith d' (pstr "/") = true) :
    ∃ k, k < parts.length ∧ d' = segsJoin (parts.take (k + 1)) := by
  induction parts generalizing d' with
  | nil =>
    obtain ⟨t, ht⟩ := hpre
    simp only [segsJoin] at ht
    exact absurd (List.append_eq_nil.mp ht).1 hne
  | cons p rest ih =>
    obtain ⟨t, ht⟩ := hpre
    simp only [segsJoin] at ht
    obtain ⟨y, hy⟩ := (endsWith_slash_iff d').mp hend
    by_cases hle : d'.length ≤ p.length
    · exfalso
      have htake := congrArg (List.take d'.length) ht
      rw [List.take_append_eq_append_take,
        show d'.length - d'.length = 0 from by omega, List.take_zero,
        List.append_nil, List.take_of_length_le (le_refl _),
        List.take_append_eq_append_take,
        show d'.length - p.length = 0 from by omega, List.take_zero,
        List.append_nil] at htake
      have hslash : '/' ∈ d' := by rw [hy]; simp
      rw [htake] at hslash
      exact hns p (List.mem_cons_self p rest) (List.take_subset _ _ hslash)
    · push_neg at hle
      have h1 : d'.take p.length = p := by
        have htake := congrArg (List.take p.length) ht
        rw [List.take_append_eq_append_take,
          show p.length - d'.length = 0 from by omega, List.take_zero,
          List.append_nil, List.take_append_eq_append_take,
          show p.length - p.length = 0 from by omega, List.take_zero,
          List.append_nil, List.take_of_length_le (le_refl _)] at htake
        exact htake
      have hd2 : d' = p ++ d'.drop p.length := by
        conv_lhs => rw [← List.take_append_drop p.length d', h1]
      obtain ⟨r0, rr, hrr⟩ : ∃ r0 rr, d'.drop p.length = r0 :: rr := by
        cases hc : d'.drop p.length with
        | nil =>
          have := congrArg List.length hc
          simp at this
          omega
        | cons r0 rr => exact ⟨r0, rr, rfl⟩
      have hcancel : (d'.drop p.length) ++ t = '/' :: segsJoin rest := by
        refine @List.append_cancel_left _ p _ _ ?_
        rw [← List.append_assoc, ← hd2]
        exact ht
      have hr0 : r0 = '/' := by
        rw [hrr] at hcancel
        exact (List.cons_eq_cons.mp hcancel).1
      subst hr0
      cases hrrne : rr with
      | nil =>
        refine ⟨0, by simp, ?_⟩
        rw [hd2, hrr, hrrne]
        simp [segsJoin]
      | cons a b =>
        have hrr_ne : rr ≠ [] := by rw [hrrne]; simp
        have hd3 : d' = p ++ '/' :: rr := by rw [hd2, hrr]
        have hrrend : ∃ z, rr = z ++ ['/'] := by
          apply ends_slash_tail y p rr _ hrr_ne
          rw [← hy, hd3]
        have hrest : rr ++ t = segsJoin rest := by
          rw [hrr] at hcancel
          exact (List.cons_eq_cons.mp hcancel).2
        obtain ⟨k, hk, hkd⟩ := ih (fun x hx => hns x (List.mem_cons_of_mem p hx))
          rr hrr_ne ⟨t, hrest⟩
          ((endsWith_slash_iff rr).mpr hrrend)
        refine ⟨k + 1, by simpa using hk, ?_⟩
        rw [hd3, hkd]
        simp [List.take_cons, segsJoin]




theorem splitAll_join_sep :
    ∀ (fuel : Nat) (rest : PStr), rest.length ≤ fuel →
    containsStr ('/' :: rest) (pstr "//") = false →
    (rest = [] ∨ endsWith rest (pstr "/") = true) →
    segsJoin ((splitAll '/' rest).filter (· ≠ [])) = rest := by
  intro fuel
  induction fuel with
  | zero =>
    intro rest hlen _ _
    have : rest = [] := List.length_eq_zero.mp (by omega)
    subst this
    rfl
  | succ f ih =>
    intro rest hlen hcont hend
    cases rest with
    | nil => rfl
    | cons c r =>
      rcases hend with hend | hend
      · exact absurd hend (by simp)
      have hc : c ≠ '/' := by
        intro hceq
        subst hceq
        have hsw : startsWith ('/' :: '/' :: r) (pstr "//") = true := by
          unfold startsWith
          simp [pstr]
        have := containsStr_of_self _ _ hsw
        rw [hcont] at this
        exact Bool.false_ne_true this
      obtain ⟨y, hy⟩ := (endsWith_slash_iff (c :: r)).mp hend
      have hin : '/' ∈ (c :: r : PStr) := by rw [hy]; simp
      -- first-slash decomposition: c :: r = S ++ '/' :: R
      have hdw : (c :: r : PStr).dropWhile (· ≠ '/') ≠ [] := by
        intro hnil
        have hall := List.dropWhile_eq_nil_iff.mp hnil
        have := hall '/' hin
        simp at this
      obtain ⟨d, R, hw⟩ : ∃ d R, (c :: r : PStr).dropWhile (· ≠ '/') = d :: R := by
        cases h : (c :: r : PStr).dropWhile (· ≠ '/') with
        | nil => exact absurd h hdw
        | cons d R => exact ⟨d, R, rfl⟩
      have hd : d = '/' := by
        have hhead := List.head_dropWhile_not (· ≠ '/') (c :: r : PStr)
        rw [hw] at hhead
        simpa using hhead (by simp)
      subst hd
      set S := (c :: r : PStr).takeWhile (· ≠ '/') with hS
      have hsplit : (c :: r : PStr) = S ++ '/' :: R := by
        rw [← hw, hS, List.takeWhile_append_dropWhile]
      have hSne : S ≠ [] := by
        rw [hS]
        rw [List.takeWhile_cons]
        simp [hc]
      have hSns : '/' ∉ S := by
        intro hmem
        have := List.mem_takeWhile_imp (hS ▸ hmem)
        simp at this
      have hsa : splitAll '/' (c :: r) = S :: splitAll '/' R := by
        conv_lhs => rw [hsplit]
        exact splitAll_seg '/' S R hSns
      have hlenS : 1 ≤ S.length := by
        cases hSc : S with
        | nil => exact absurd hSc hSne
        | cons a b => simp
      have hlenR : R.length ≤ f := by
        have := congrArg List.length hsplit
        simp at this hlen
        omega
      have hcontR : containsStr ('/' :: R) (pstr "//") = false := by
        cases hcr : containsStr ('/' :: R) (pstr "//") with
        | false => rfl
        | true =>
          exfalso
          have hsuf := containsStr_of_suffix ('/' :: S) _ _ hcr
          have heq2 : ('/' :: S) ++ ('/' :: R) = '/' :: c :: r := by
            rw [List.cons_append, ← hsplit]
          rw [heq2, hcont] at hsuf
          exact Bool.false_ne_true hsuf
      have hendR : R = [] ∨ endsWith R (pstr "/") = true := by
        by_cases hR : R = []
        · exact Or.inl hR
        · right
          obtain ⟨z, hz⟩ := ends_slash_tail y S R (by rw [← hy, hsplit]) hR
          exact (endsWith_slash_iff R).mpr ⟨z, hz⟩
      rw [hsa]
      rw [show (S :: splitAll '/' R).filter (· ≠ []) =
        S :: (splitAll '/' R).filter (· ≠ []) from by simp [List.filter_cons, hSne]]
      rw [show segsJoin (S :: (splitAll '/' R).filter (· ≠ [])) =
        S ++ '/' :: segsJoin ((splitAll '/' R).filter (· ≠ [])) from rfl]
      rw [ih R hlenR hcontR hendR]
      exact hsplit.symm

theorem effectivePath_eq (url : PStr) (p : ParseRes) (hu : urlparse url = some p) :
    effectivePath url = some (effPathOf p) := by
  unfold effectivePath effPathOf
  rw [hu]
  rfl

theorem extract_directories_eq (url : PStr) (p : ParseRes) (hu : urlparse url = some p) :
    extract_directories url =
      segsAccum (pstr "/") ((splitAll '/' (basePathOf (effPathOf p))).filter (· ≠ [])) := by
  unfold extract_directories basePathOf effPathOf
  rw [hu]
  dsimp only
  rw [dirs_foldl_eq]
  rfl

theorem effPathOf_starts (p : ParseRes) : ∃ t, effPathOf p = '/' :: t := by
  unfold effPathOf
  dsimp only
  set path := if p.path = [] then pstr "/" else p.path with hp
  by_cases hsw : startsWith path (pstr "/") = true
  · rw [if_pos hsw]
    unfold startsWith at hsw
    simp only [decide_eq_true_eq] at hsw
    refine ⟨path.drop 1, ?_⟩
    conv_lhs => rw [← List.take_append_drop 1 path]
    rw [show (pstr "/").length = 1 from rfl] at hsw
    rw [hsw]
    rfl
  · rw [if_neg hsw]
    exact ⟨path, rfl⟩

theorem containsStr_nil_pat (t : PStr) : containsStr t [] = true := by
  cases t with
  | nil => rw [containsStr]; simp
  | cons c r =>
    rw [containsStr]
    simp [startsWith]

theorem containsStr_append_left (s t pat : PStr)
    (h : containsStr s pat = true) : containsStr (s ++ t) pat = true := by
  induction s with
  | nil =>
    rw [containsStr] at h
    simp only [decide_eq_true_eq] at h
    subst h
    exact containsStr_nil_pat t
  | cons c r ih =>
    rcases (containsStr_cons c r pat).mp h with hsw | hct
    · rw [List.cons_append]
      exact (containsStr_cons c (r ++ t) pat).mpr
        (Or.inl (by rw [← List.cons_append]; exact startsWith_append _ t _ hsw))
    · rw [List.cons_append]
      exact (containsStr_cons c (r ++ t) pat).mpr (Or.inr (ih hct))

theorem isPrefixOf_iff_append (a b : PStr) :
    a.isPrefixOf b = true ↔ ∃ t, a ++ t = b := by
  induction a generalizing b with
  | nil => simp [List.isPrefixOf]
  | cons x xs ih =>
    cases b with
    | nil => simp [List.isPrefixOf]
    | cons y ys =>
      rw [List.isPrefixOf]
      simp only [Bool.and_eq_true, beq_iff_eq, ih ys, List.cons_append,
        List.cons_eq_cons]
      constructor
      · rintro ⟨rfl, t, rfl⟩
        exact ⟨t, rfl, rfl⟩
      · rintro ⟨t, rfl, rfl⟩
        exact ⟨rfl, t, rfl⟩

theorem prefix_transfer (d bp tail : PStr) (y : PStr) (hy : d = y ++ ['/'])
    (hnt : '/' ∉ tail) (hpre : ∃ t, d ++ t = bp ++ tail) :
    ∃ t, d ++ t = bp := by
  obtain ⟨t, ht⟩ := hpre
  by_cases hle : d.length ≤ bp.length
  · have htake := congrArg (List.take d.length) ht
    rw [List.take_append_eq_append_take,
      show d.length - d.length = 0 from by omega, List.take_zero,
      List.append_nil, List.take_of_length_le (le_refl _),
      List.take_append_eq_append_take,
      show d.length - bp.length = 0 from by omega, List.take_zero,
      List.append_nil] at htake
    refine ⟨bp.drop d.length, ?_⟩
    nth_rewrite 1 [htake]
    exact List.take_append_drop _ _
  · exfalso
    push_neg at hle
    have htake := congrArg (List.take bp.length) ht
    rw [List.take_append_eq_append_take,
      show bp.length - d.length = 0 from by omega, List.take_zero,
      List.append_nil, List.take_append_eq_append_take,
      show bp.length - bp.length = 0 from by omega, List.take_zero,
      List.append_nil, List.take_of_length_le (le_refl _)] at htake
    have hd2 : d = bp ++ d.drop bp.length := by
      conv_lhs => rw [← List.take_append_drop bp.length d, htake]
    have hylen : bp.length ≤ y.length := by
      have := congrArg List.length hy
      simp at this
      omega
    have hextra : d.drop bp.length = y.drop bp.length ++ ['/'] := by
      rw [hy, List.drop_append_eq_append_drop,
        show bp.length - y.length = 0 from by omega, List.drop_zero]
    have hmem : '/' ∈ d.drop bp.length := by rw [hextra]; simp
    have hcancel : d.drop bp.length ++ t = tail := by
      refine @List.append_cancel_left _ bp _ _ ?_
      rw [← List.append_assoc, ← hd2]
      exact ht
    exact hnt (by rw [← hcancel]; exact List.mem_append_left t hmem)

/-- C8, counterexample. The claim says `extract_directories` returns all
parent prefixes ending in `/` "up to and including `/`": but the root
`/` itself is never produced (`extract_directories("http://test/")` is
empty), and with an empty path segment the produced entry `/a/` is not
even a prefix of the path `//a/x`. -/
theorem C8_counterexample :
    extract_directories (pstr "http://test/") = [] ∧
    pstr "/a/" ∈ extract_directories (pstr "http://h//a/x") ∧
    (pstr "/a/").isPrefixOf (pstr "//a/x") = false := by decide

/-- C8: amended. For a parseable URL whose effective path contains no
empty segment (no `//`), `extract_directories` returns exactly the proper
parent directory prefixes of the path: the prefixes ending in a slash,
excluding the root `/` itself (which the code never emits). -/
theorem C8_amended (url ep : PStr) (hep : effectivePath url = some ep)
    (hno : containsStr ep (pstr "//") = false) (d : PStr) :
    d ∈ extract_directories url ↔
      (specParentDir ep d = true ∧ d ≠ pstr "/") := by
  obtain ⟨p, hu⟩ : ∃ p, urlparse url = some p := by
    cases hu0 : urlparse url with
    | none =>
      unfold effectivePath at hep
      rw [hu0] at hep
      simp at hep
    | some p => exact ⟨p, rfl⟩
  have hef := effectivePath_eq url p hu
  rw [hep] at hef
  have hepeq : ep = effPathOf p := Option.some.inj hef
  have hdirs := extract_directories_eq url p hu
  rw [← hepeq] at hdirs
  obtain ⟨t0, ht0⟩ := effPathOf_starts p
  rw [← hepeq] at ht0
  obtain ⟨tail, hbt, hnt, hbends⟩ :
      ∃ tail, (if endsWith ep (pstr "/") then ep
        else ((splitAtLastSlash ep).1.dropLast) ++ ['/']) ++ tail = ep ∧
        '/' ∉ tail ∧
        endsWith (if endsWith ep (pstr "/") then ep
          else ((splitAtLastSlash ep).1.dropLast) ++ ['/']) (pstr "/") = true := by
    by_cases hends : endsWith ep (pstr "/") = true
    · exact ⟨[], by rw [if_pos hends]; simp, by simp, by rw [if_pos hends]; exact hends⟩
    · obtain ⟨w, hw1, hw2, hw3⟩ := splitAtLastSlash_decomp ep (by rw [ht0]; simp)
      refine ⟨(splitAtLastSlash ep).2, ?_, hw3, ?_⟩
      · rw [if_neg hends, hw2]
        rw [show (w ++ ['/']).dropLast = w from by simp]
        exact hw1.symm
      · rw [if_neg hends, hw2]
        rw [show (w ++ ['/']).dropLast = w from by simp]
        exact (endsWith_slash_iff _).mpr ⟨w, rfl⟩
  set bp0 := (if endsWith ep (pstr "/") then ep
    else ((splitAtLastSlash ep).1.dropLast) ++ ['/']) with hbp0def
  have hcbp : containsStr bp0 (pstr "//") = false := by
    cases hc : containsStr bp0 (pstr "//") with
    | false => rfl
    | true =>
      exfalso
      have h2 := containsStr_append_left bp0 tail _ hc
      rw [hbt, hno] at h2
      exact Bool.false_ne_true h2
  have hbne : bp0 ≠ pstr "//" := by
    intro h
    have hsw : startsWith bp0 (pstr "//") = true := by rw [h]; decide
    have h2 := containsStr_of_self _ _ hsw
    rw [hcbp] at h2
    exact Bool.false_ne_true h2
  have hbase : basePathOf ep = bp0 := by
    unfold basePathOf
    rw [← hbp0def, if_neg hbne]
  obtain ⟨y0, hy0⟩ := (endsWith_slash_iff bp0).mp hbends
  obtain ⟨rest, hrest⟩ : ∃ rest, bp0 = '/' :: rest := by
    cases hb : bp0 with
    | nil => rw [hb] at hy0; exact absurd hy0.symm (by simp)
    | cons b0 brest =>
      refine ⟨brest, ?_⟩
      have h2 := hbt
      rw [hb, ht0] at h2
      simp only [List.cons_append] at h2
      rw [(List.cons_eq_cons.mp h2).1]
  have hrends : rest = [] ∨ endsWith rest (pstr "/") = true := by
    by_cases hr : rest = []
    · exact Or.inl hr
    · right
      obtain ⟨z, hz⟩ := ends_slash_tail y0 [] rest (by rw [← hy0, hrest]; rfl) hr
      exact (endsWith_slash_iff rest).mpr ⟨z, hz⟩
  have hsa : splitAll '/' bp0 = [] :: splitAll '/' rest := by
    rw [hrest]
    conv_lhs => rw [splitAll]
    simp
  set parts := (splitAll '/' rest).filter (· ≠ []) with hparts
  have hfilter : (splitAll '/' bp0).filter (· ≠ []) = parts := by
    rw [hsa, hparts]
    simp [List.filter_cons]
  have hcont2 : containsStr ('/' :: rest) (pstr "//") = false := by
    rw [← hrest]; exact hcbp
  have hjoin : segsJoin parts = rest :=
    splitAll_join_sep rest.length rest (le_refl _) hcont2 hrends
  have hns : ∀ x ∈ parts, '/' ∉ x := fun x hx =>
    splitAll_no_sep '/' rest x (List.mem_of_mem_filter hx)
  rw [hbase, hfilter] at hdirs
  rw [hdirs, mem_segsAccum]
  simp only [specParentDir, decide_eq_true_eq, isPrefixOf_iff_append]
  constructor
  · rintro ⟨k, hk, hd⟩
    have hdc : d = '/' :: segsJoin (parts.take (k + 1)) := hd
    obtain ⟨s0, ss, hpt⟩ : ∃ s0 ss, parts.take (k + 1) = s0 :: ss := by
      cases hpt : parts.take (k + 1) with
      | nil =>
        exfalso
        have hlen := congrArg List.length hpt
        rw [List.length_take] at hlen
        simp only [List.length_nil, Nat.min_eq_zero_iff] at hlen
        rcases hlen with h | h <;> omega
      | cons s0 ss => exact ⟨s0, ss, rfl⟩
    obtain ⟨y, hy⟩ := segsJoin_ends (parts.take (k + 1)) (by rw [hpt]; simp)
    refine ⟨⟨⟨segsJoin (parts.drop (k + 1)) ++ tail, ?_⟩, ?_⟩, ?_⟩
    · rw [hdc, ← hbt, hrest, ← hjoin]
      rw [show ('/' :: segsJoin (parts.take (k + 1))) ++
          (segsJoin (parts.drop (k + 1)) ++ tail)
        = ('/' :: (segsJoin (parts.take (k + 1)) ++ segsJoin (parts.drop (k + 1)))) ++ tail
        from by simp]
      rw [← segsJoin_append, List.take_append_drop]
    · exact (endsWith_slash_iff d).mpr ⟨'/' :: y, by rw [hdc, hy]; rfl⟩
    · intro h
      have hl := congrArg List.length h
      rw [hdc, hpt, show segsJoin (s0 :: ss) = s0 ++ '/' :: segsJoin ss from rfl,
        show (pstr "/").length = 1 from rfl] at hl
      rw [List.length_cons, List.length_append, List.length_cons] at hl
      omega
  · rintro ⟨⟨⟨t, ht⟩, hdend⟩, hdne⟩
    obtain ⟨y, hy⟩ := (endsWith_slash_iff d).mp hdend
    obtain ⟨t2, ht2⟩ : ∃ t2, d ++ t2 = bp0 :=
      prefix_transfer d bp0 tail y hy hnt ⟨t, by rw [hbt]; exact ht⟩
    obtain ⟨d2, hd2⟩ : ∃ d2, d = '/' :: d2 := by
      cases hdc : d with
      | nil => rw [hdc] at hy; exact absurd hy.symm (by simp)
      | cons c0 cr =>
        have hh := ht2
        rw [hdc, hrest] at hh
        simp only [List.cons_append] at hh
        exact ⟨cr, by rw [(List.cons_eq_cons.mp hh).1]⟩
    have hd2ne : d2 ≠ [] := by
      intro h
      apply hdne
      rw [hd2, h]
      rfl
    have hd2end : endsWith d2 (pstr "/") = true := by
      obtain ⟨z, hz⟩ := ends_slash_tail y [] d2 (by rw [← hy, hd2]; rfl) hd2ne
      exact (endsWith_slash_iff d2).mpr ⟨z, hz⟩
    have hd2pre : ∃ t3, d2 ++ t3 = segsJoin parts := by
      refine ⟨t2, ?_⟩
      have hh := ht2
      rw [hd2, hrest, ← hjoin] at hh
      simp only [List.cons_append] at hh
      exact (List.cons_eq_cons.mp hh).2
    obtain ⟨k, hk, hkd⟩ := segsJoin_prefix_char parts hns d2 hd2ne hd2pre hd2end
    exact ⟨k, hk, by rw [hd2, hkd]; rfl⟩

/-- C8, witness for the amended theorem. -/
theorem C8_amended_witness :
    pstr "/a/" ∈ extract_directories (pstr "http://h/a/b") ↔
      (specParentDir (pstr "/a/b") (pstr "/a/") = true ∧ pstr "/a/" ≠ pstr "/") :=
  C8_amended (pstr "http://h/a/b") (pstr "/a/b") (by decide) (by decide) (pstr "/a/")

theorem charToLower_cases (c : Char) :
    Char.toLower c = c ∨
      (65 ≤ c.toNat ∧ c.toNat ≤ 90 ∧ (Char.toLower c).toNat = c.toNat + 32) := by
  unfold Char.toLower
  by_cases h : c.toNat ≥ 65 ∧ c.toNat ≤ 90
  · right
    refine ⟨h.1, h.2, ?_⟩
    rw [if_pos h]
    have key : ∀ n : Nat, 65 ≤ n → n ≤ 90 → (Char.ofNat (n + 32)).toNat = n + 32 := by
      intro n h1 h2
      interval_cases n <;> decide
    exact key c.toNat h.1 h.2
  · left
    rw [if_neg h]

theorem toLower_preserve_not (c b : Char) (hb : b.toNat < 97) (h : c ≠ b) :
    Char.toLower c ≠ b := by
  rcases charToLower_cases c with h1 | ⟨h1, h2, h3⟩
  · rw [h1]; exact h
  · intro he
    rw [he] at h3
    omega

theorem toLower_toLower (c : Char) :
    Char.toLower (Char.toLower c) = Char.toLower c := by
  rcases charToLower_cases c with h1 | ⟨h1, h2, h3⟩
  · rw [h1, h1]
  · rcases charToLower_cases (Char.toLower c) with g1 | ⟨g1, g2, g3⟩
    · exact g1
    · omega

theorem mem_pyLower (s : PStr) (c : Char) (h : c ∈ pyLower s) :
    ∃ c₀ ∈ s, c = Char.toLower c₀ := by
  obtain ⟨c₀, hc₀, he⟩ := List.mem_map.mp h
  exact ⟨c₀, hc₀, he.symm⟩

theorem pyLower_idem (s : PStr) : pyLower (pyLower s) = pyLower s := by
  induction s with
  | nil => rfl
  | cons c r ih =>
    show Char.toLower (Char.toLower c) :: pyLower (pyLower r) = _
    rw [toLower_toLower, ih]
    rfl

theorem pyLower_eq_nil (s : PStr) : pyLower s = [] ↔ s = [] := by
  simp [pyLower]

theorem mem_pyLower_low (s : PStr) (b : Char) (hb : b.toNat < 97 ∧ 90 < b.toNat) :
    b ∈ pyLower s ↔ b ∈ s := by
  constructor
  · intro h
    obtain ⟨c₀, hc₀, he⟩ := mem_pyLower s b h
    rcases charToLower_cases c₀ with h1 | ⟨h1, h2, h3⟩
    · rw [h1] at he
      rw [he]
      exact hc₀
    · exfalso
      rw [← he] at h3
      omega
  · intro h
    have he : Char.toLower b = b := by
      rcases charToLower_cases b with h1 | ⟨h1, h2, h3⟩
      · exact h1
      · omega
    rw [← he]
    exact List.mem_map_of_mem Char.toLower h

theorem isAsciiAlpha_toLower (c : Char) (h : isAsciiAlpha c = true) :
    isAsciiAlpha (Char.toLower c) = true := by
  simp only [isAsciiAlpha, decide_eq_true_eq] at h ⊢
  rcases charToLower_cases c with h1 | ⟨h1, h2, h3⟩
  · rw [h1]; exact h
  · omega

theorem isSchemeChar_toLower (c : Char) (h : isSchemeChar c = true) :
    isSchemeChar (Char.toLower c) = true := by
  simp only [isSchemeChar, decide_eq_true_eq] at h ⊢
  rcases charToLower_cases c with h1 | ⟨h1, h2, h3⟩
  · rw [h1]; exact h
  · omega

theorem schemeChar_facts (ch : Char) (h : isSchemeChar ch = true) :
    ch ≠ ':' ∧ ch ≠ '#' ∧ ch ≠ '?' ∧ ch ≠ '/' ∧
      ¬(ch = '\t' ∨ ch = '\r' ∨ ch = '\n') := by
  refine ⟨?_, ?_, ?_, ?_, ?_⟩
  · intro he; rw [he] at h; exact absurd h (by decide)
  · intro he; rw [he] at h; exact absurd h (by decide)
  · intro he; rw [he] at h; exact absurd h (by decide)
  · intro he; rw [he] at h; exact absurd h (by decide)
  · rintro (he | he | he) <;> rw [he] at h <;> exact absurd h (by decide)

theorem takeWhile_append_all (q : Char → Bool) (A B : PStr)
    (h : ∀ a ∈ A, q a = true) :
    (A ++ B).takeWhile q = A ++ B.takeWhile q := by
  induction A with
  | nil => rfl
  | cons a r ih =>
    rw [List.cons_append, List.takeWhile_cons_of_pos (h a (by simp)),
      ih (fun x hx => h x (by simp [hx])), List.cons_append]

theorem dropWhile_append_all (q : Char → Bool) (A B : PStr)
    (h : ∀ a ∈ A, q a = true) :
    (A ++ B).dropWhile q = B.dropWhile q := by
  induction A with
  | nil => rfl
  | cons a r ih =>
    rw [List.cons_append, List.dropWhile_cons_of_pos (h a (by simp)),
      ih (fun x hx => h x (by simp [hx]))]

theorem takeWhile_append_stop (q : Char → Bool) (X Y : PStr)
    (hx : ∃ x ∈ X, q x = false) :
    (X ++ Y).takeWhile q = X.takeWhile q ∧
      (X ++ Y).dropWhile q = X.dropWhile q ++ Y := by
  induction X with
  | nil => simp at hx
  | cons a r ih =>
    by_cases ha : q a = true
    · obtain ⟨x, hxm, hxf⟩ := hx
      have hxr : ∃ x ∈ r, q x = false := by
        rcases List.mem_cons.mp hxm with rfl | hm
        · rw [ha] at hxf; exact absurd hxf (by simp)
        · exact ⟨x, hm, hxf⟩
      obtain ⟨ih1, ih2⟩ := ih hxr
      constructor
      · rw [List.cons_append, List.takeWhile_cons_of_pos ha,
          List.takeWhile_cons_of_pos ha, ih1]
      · rw [List.cons_append, List.dropWhile_cons_of_pos ha,
          List.dropWhile_cons_of_pos ha, ih2]
    · have ha' : q a = false := by
        cases hqa : q a
        · rfl
        · exact absurd hqa ha
      constructor
      · rw [List.cons_append, List.takeWhile_cons_of_neg (by simp [ha']),
          List.takeWhile_cons_of_neg (by simp [ha'])]
      · rw [List.cons_append, List.dropWhile_cons_of_neg (by simp [ha']),
          List.dropWhile_cons_of_neg (by simp [ha']), List.cons_append]

theorem takeWhile_all (q : Char → Bool) (l : PStr) (h : ∀ a ∈ l, q a = true) :
    l.takeWhile q = l := by
  have h2 := takeWhile_append_all q l [] h
  simpa using h2

theorem mem_of_prefix_part (a b : PStr) (h : ∃ t, a ++ t = b) (ch : Char)
    (hm : ch ∈ a) : ch ∈ b := by
  obtain ⟨t, rfl⟩ := h
  exact List.mem_append_left t hm

theorem removeUnsafe_eq_self (s : PStr)
    (h : ∀ ch ∈ s, ¬(ch = (Char.ofNat 9) ∨ ch = (Char.ofNat 13) ∨ ch = (Char.ofNat 10))) :
    removeUnsafe s = s := by
  unfold removeUnsafe
  apply List.filter_eq_self.mpr
  intro a ha
  simpa using h a ha

theorem mem_removeUnsafe (s : PStr) (ch : Char) (h : ch ∈ removeUnsafe s) :
    ch ∈ s ∧ ¬(ch = (Char.ofNat 9) ∨ ch = (Char.ofNat 13) ∨ ch = (Char.ofNat 10)) := by
  unfold removeUnsafe at h
  have h2 := List.mem_filter.mp h
  refine ⟨h2.1, ?_⟩
  have h3 := h2.2
  simp only [decide_eq_true_eq] at h3
  simpa using h3

theorem schemeSplit_no_colon (url dflt : PStr) (h : ':' ∉ url) :
    schemeSplit url dflt = (dflt, url) := by
  unfold schemeSplit
  rw [if_neg h]

theorem schemeSplit_invalid (url dflt : PStr)
    (h : ¬(url.takeWhile (· ≠ ':') ≠ [] ∧
      headAsciiAlpha (url.takeWhile (· ≠ ':')) = true ∧
      (url.takeWhile (· ≠ ':')).all isSchemeChar = true)) :
    schemeSplit url dflt = (dflt, url) := by
  unfold schemeSplit
  by_cases hc : ':' ∈ url
  · rw [if_pos hc]
    simp only []
    rw [if_neg h]
  · rw [if_neg hc]

theorem schemeSplit_colon_valid (A B dflt : PStr) (hA : ':' ∉ A) (hne : A ≠ [])
    (hh : headAsciiAlpha A = true) (hall : A.all isSchemeChar = true) :
    schemeSplit (A ++ ':' :: B) dflt = (pyLower A, B) := by
  unfold schemeSplit
  have hc : ':' ∈ A ++ ':' :: B := by simp
  rw [if_pos hc]
  have hq : ∀ a ∈ A, (fun c => decide (c ≠ ':')) a = true := by
    intro a ha
    simp only [decide_eq_true_eq]
    exact fun he => hA (he ▸ ha)
  have ht : (A ++ ':' :: B).takeWhile (· ≠ ':') = A := by
    rw [takeWhile_append_all _ _ _ hq, List.takeWhile_cons_of_neg (by simp)]
    simp
  have hd : (A ++ ':' :: B).dropWhile (· ≠ ':') = ':' :: B := by
    rw [dropWhile_append_all _ _ _ hq, List.dropWhile_cons_of_neg (by simp)]
  simp only [ht, hd]
  rw [if_pos ⟨hne, hh, hall⟩]
  simp

theorem splitFirstOn_eq (t : Char) (X Y : PStr) (hX : t ∉ X) :
    splitFirstOn t (X ++ t :: Y) = (X, Y) := by
  unfold splitFirstOn
  have hq : ∀ a ∈ X, (fun c => decide (c ≠ t)) a = true := by
    intro a ha
    simp only [decide_eq_true_eq]
    exact fun he => hX (he ▸ ha)
  rw [takeWhile_append_all _ _ _ hq, List.takeWhile_cons_of_neg (by simp),
    dropWhile_append_all _ _ _ hq, List.dropWhile_cons_of_neg (by simp)]
  simp

theorem fragQuerySplit_path_eq (sc nc rest : PStr) :
    (fragQuerySplit sc nc rest).path =
      ((rest.takeWhile (· ≠ '#')).takeWhile (· ≠ '?')) := by
  unfold fragQuerySplit
  have hfr1 : (if '#' ∈ rest then splitFirstOn '#' rest else (rest, ([] : PStr))).1 =
      rest.takeWhile (· ≠ '#') := by
    by_cases h : '#' ∈ rest
    · rw [if_pos h]; rfl
    · rw [if_neg h]
      refine (takeWhile_all _ _ ?_).symm
      intro a ha
      simp only [decide_eq_true_eq]
      exact fun he => h (he ▸ ha)
  simp only [hfr1]
  by_cases h2 : '?' ∈ rest.takeWhile (· ≠ '#')
  · rw [if_pos h2]; rfl
  · rw [if_neg h2]
    refine (takeWhile_all _ _ ?_).symm
    intro a ha
    simp only [decide_eq_true_eq]
    exact fun he => h2 (he ▸ ha)

theorem fragQuerySplit_facts (sc nc rest : PStr) :
    (∃ t, (fragQuerySplit sc nc rest).path ++ t = rest) ∧
    ('#' ∉ (fragQuerySplit sc nc rest).path) ∧
    ('?' ∉ (fragQuerySplit sc nc rest).path) ∧
    (∀ ch ∈ (fragQuerySplit sc nc rest).query, ch ∈ rest ∧ ch ≠ '#') := by
  have hp := fragQuerySplit_path_eq sc nc rest
  have hfr1pre : ∃ t, rest.takeWhile (· ≠ '#') ++ t = rest :=
    ⟨rest.dropWhile (· ≠ '#'), List.takeWhile_append_dropWhile _ _⟩
  have hpathpre : ∃ t, (fragQuerySplit sc nc rest).path ++ t =
      rest.takeWhile (· ≠ '#') := by
    rw [hp]
    exact ⟨(rest.takeWhile (· ≠ '#')).dropWhile (· ≠ '?'),
      List.takeWhile_append_dropWhile _ _⟩
  have hmem_fr1 : ∀ ch ∈ rest.takeWhile (· ≠ '#'), ch ≠ '#' := by
    intro ch hm
    have := List.mem_takeWhile_imp hm
    simpa using this
  refine ⟨?_, ?_, ?_, ?_⟩
  · obtain ⟨t1, h1⟩ := hpathpre
    obtain ⟨t2, h2⟩ := hfr1pre
    exact ⟨t1 ++ t2, by rw [← List.append_assoc, h1, h2]⟩
  · intro hm
    exact hmem_fr1 '#' (mem_of_prefix_part _ _ hpathpre '#' hm) rfl
  · intro hm
    rw [hp] at hm
    have := List.mem_takeWhile_imp hm
    simp at this
  · intro ch hm
    have hq : (fragQuerySplit sc nc rest).query =
        (if '?' ∈ rest.takeWhile (· ≠ '#') then
          splitFirstOn '?' (rest.takeWhile (· ≠ '#'))
        else (rest.takeWhile (· ≠ '#'), ([] : PStr))).2 := by
      unfold fragQuerySplit
      have hfr1 : (if '#' ∈ rest then splitFirstOn '#' rest
          else (rest, ([] : PStr))).1 = rest.takeWhile (· ≠ '#') := by
        by_cases h : '#' ∈ rest
        · rw [if_pos h]; rfl
        · rw [if_neg h]
          refine (takeWhile_all _ _ ?_).symm
          intro a ha
          simp only [decide_eq_true_eq]
          exact fun he => h (he ▸ ha)
      simp only [hfr1]
    rw [hq] at hm
    by_cases h2 : '?' ∈ rest.takeWhile (· ≠ '#')
    · rw [if_pos h2] at hm
      have hm2 : ch ∈ (rest.takeWhile (· ≠ '#')).dropWhile (· ≠ '?') := by
        have : (splitFirstOn '?' (rest.takeWhile (· ≠ '#'))).2 =
            ((rest.takeWhile (· ≠ '#')).dropWhile (· ≠ '?')).drop 1 := rfl
        rw [this] at hm
        exact List.drop_subset _ _ hm
      have hm3 : ch ∈ rest.takeWhile (· ≠ '#') := by
        have hsplit := List.takeWhile_append_dropWhile
          (fun c => decide (c ≠ '?')) (rest.takeWhile (· ≠ '#'))
        rw [← hsplit]
        exact List.mem_append_right _ hm2
      exact ⟨mem_of_prefix_part _ _ hfr1pre ch hm3, hmem_fr1 ch hm3⟩
    · rw [if_neg h2] at hm
      simp at hm

theorem path_shape (pth rest : PStr) (hpre : ∃ t, pth ++ t = rest)
    (hnh : '#' ∉ pth) (hnq : '?' ∉ pth)
    (hrest : rest = [] ∨ ∃ r0 rt, rest = r0 :: rt ∧ notNetlocDelim r0 = false) :
    pth = [] ∨ pth.take 1 = pstr "/" := by
  cases hpc : pth with
  | nil => exact Or.inl rfl
  | cons p0 pr =>
    right
    obtain ⟨t, ht⟩ := hpre
    rw [hpc] at ht
    rcases hrest with rfl | ⟨r0, rt, he, hd⟩
    · exact absurd ht (by simp)
    · rw [he] at ht
      simp only [List.cons_append] at ht
      have hp0 : p0 = r0 := (List.cons_eq_cons.mp ht).1
      have hd2 : r0 = '/' ∨ r0 = '?' ∨ r0 = '#' := by
        simp only [notNetlocDelim] at hd
        rcases h3 : decide (r0 = '/' ∨ r0 = '?' ∨ r0 = '#') with _ | _
        · exfalso
          rw [show (decide ¬(r0 = '/' ∨ r0 = '?' ∨ r0 = '#')) =
            !(decide (r0 = '/' ∨ r0 = '?' ∨ r0 = '#')) from by simp [decide_not],
            h3] at hd
          simp at hd
        · exact of_decide_eq_true h3
      rcases hd2 with rfl | rfl | rfl
      · rw [hp0]; rfl
      · exfalso
        exact hnq (by rw [hpc, hp0]; exact List.mem_cons_self _ _)
      · exfalso
        exact hnh (by rw [hpc, hp0]; exact List.mem_cons_self _ _)

theorem prefix_head_shape (pth sp : PStr) (hpre : ∃ t, pth ++ t = sp)
    (hsp : sp = [] ∨ sp.take 1 = pstr "/") : pth = [] ∨ pth.take 1 = pstr "/" := by
  cases hpc : pth with
  | nil => exact Or.inl rfl
  | cons p0 pr =>
    right
    obtain ⟨t, ht⟩ := hpre
    rw [hpc] at ht
    rcases hsp with rfl | hsp
    · exact absurd ht (by simp)
    · cases hsc : sp with
      | nil => rw [hsc] at ht; exact absurd ht (by simp)
      | cons s0 st =>
        rw [hsc] at ht hsp
        simp only [List.cons_append] at ht
        have hps : p0 = s0 := (List.cons_eq_cons.mp ht).1
        have h1 : (s0 :: st).take 1 = [s0] := rfl
        have h2 : (p0 :: pr).take 1 = [p0] := rfl
        rw [h1] at hsp
        rw [h2, hps]
        exact hsp

theorem stop_decomp (t : Char) (seg : PStr) (h : t ∈ seg) :
    seg = seg.takeWhile (· ≠ t) ++ t :: ((seg.dropWhile (· ≠ t)).drop 1) ∧
      t ∉ seg.takeWhile (· ≠ t) := by
  have hne : seg.dropWhile (· ≠ t) ≠ [] := by
    intro hnil
    have hall := List.dropWhile_eq_nil_iff.mp hnil
    have := hall t h
    simp at this
  obtain ⟨d, rest, hd⟩ : ∃ d rest, seg.dropWhile (· ≠ t) = d :: rest := by
    cases hc : seg.dropWhile (· ≠ t) with
    | nil => exact absurd hc hne
    | cons d rest => exact ⟨d, rest, rfl⟩
  have hdt : d = t := by
    have hhead := List.head_dropWhile_not (fun c => decide (c ≠ t)) seg
    rw [hd] at hhead
    simpa using hhead (by simp)
  constructor
  · conv_lhs => rw [← List.takeWhile_append_dropWhile (fun c => decide (c ≠ t)) seg]
    rw [hd, hdt]
    simp
  · intro hm
    have := List.mem_takeWhile_imp hm
    simp at this

theorem headAsciiAlpha_pyLower (A : PStr) (h : headAsciiAlpha A = true) :
    headAsciiAlpha (pyLower A) = true := by
  cases A with
  | nil => simp [headAsciiAlpha] at h
  | cons c r =>
    show headAsciiAlpha (Char.toLower c :: pyLower r) = true
    exact isAsciiAlpha_toLower c h

theorem all_isSchemeChar_pyLower (A : PStr) (h : A.all isSchemeChar = true) :
    (pyLower A).all isSchemeChar = true := by
  rw [List.all_eq_true] at h ⊢
  intro x hx
  obtain ⟨c₀, hc₀, rfl⟩ := mem_pyLower A x hx
  exact isSchemeChar_toLower c₀ (h c₀ hc₀)

theorem schemeSplit_inv (ru : PStr) :
    ((schemeSplit ru [] = ([], ru) ∧
      (':' ∉ ru ∨ ¬(ru.takeWhile (· ≠ ':') ≠ [] ∧
        headAsciiAlpha (ru.takeWhile (· ≠ ':')) = true ∧
        (ru.takeWhile (· ≠ ':')).all isSchemeChar = true))) ∨
    ((schemeSplit ru []).1 ≠ [] ∧ headAsciiAlpha (schemeSplit ru []).1 = true ∧
      (schemeSplit ru []).1.all isSchemeChar = true ∧
      pyLower (schemeSplit ru []).1 = (schemeSplit ru []).1)) ∧
    (∀ ch ∈ (schemeSplit ru []).2, ch ∈ ru) := by
  by_cases hcol : ':' ∈ ru
  · by_cases hval : ru.takeWhile (· ≠ ':') ≠ [] ∧
        headAsciiAlpha (ru.takeWhile (· ≠ ':')) = true ∧
        (ru.takeWhile (· ≠ ':')).all isSchemeChar = true
    · obtain ⟨hdec, hnm⟩ := stop_decomp ':' ru hcol
      have hss : schemeSplit ru [] =
          (pyLower (ru.takeWhile (· ≠ ':')), (ru.dropWhile (· ≠ ':')).drop 1) := by
        conv_lhs => rw [hdec]
        exact schemeSplit_colon_valid _ _ _ hnm hval.1 hval.2.1 hval.2.2
      rw [hss]
      constructor
      · right
        exact ⟨by rw [ne_eq, pyLower_eq_nil]; exact hval.1,
          headAsciiAlpha_pyLower _ hval.2.1,
          all_isSchemeChar_pyLower _ hval.2.2, pyLower_idem _⟩
      · intro ch hch
        have h1 : ch ∈ ru.dropWhile (· ≠ ':') := List.drop_subset _ _ hch
        rw [← List.takeWhile_append_dropWhile (fun c => decide (c ≠ ':')) ru]
        exact List.mem_append_right _ h1
    · have hss := schemeSplit_invalid ru [] hval
      rw [hss]
      exact ⟨Or.inl ⟨rfl, Or.inr hval⟩, fun ch hch => hch⟩
  · have hss := schemeSplit_no_colon ru [] hcol
    rw [hss]
    exact ⟨Or.inl ⟨rfl, Or.inl hcol⟩, fun ch hch => hch⟩

theorem netloc_extract (nc X : PStr) (hnc : ∀ ch ∈ nc, notNetlocDelim ch = true)
    (hX : X = [] ∨ ∃ x0 xr, X = x0 :: xr ∧ notNetlocDelim x0 = false) :
    (nc ++ X).takeWhile notNetlocDelim = nc ∧
      (nc ++ X).dropWhile notNetlocDelim = X := by
  rcases hX with rfl | ⟨x0, xr, rfl, hx0⟩
  · constructor
    · have := takeWhile_append_all notNetlocDelim nc [] hnc
      simpa using this
    · have := dropWhile_append_all notNetlocDelim nc [] hnc
      simpa using this
  · rw [takeWhile_append_all _ _ _ hnc, dropWhile_append_all _ _ _ hnc,
      List.takeWhile_cons_of_neg (by simp [hx0]),
      List.dropWhile_cons_of_neg (by simp [hx0])]
    simp

theorem fragQuerySplit_build (sc nc pth q : PStr)
    (h1 : '#' ∉ pth) (h2 : '?' ∉ pth) (h3 : '#' ∉ q) :
    fragQuerySplit sc nc (pth ++ (if q ≠ [] then '?' :: q else [])) =
      ⟨sc, nc, pth, q, []⟩ := by
  by_cases hq : q = []
  · subst hq
    rw [if_neg (by simp)]
    unfold fragQuerySplit
    rw [List.append_nil, if_neg h1]
    simp only []
    rw [if_neg h2]
  · rw [if_pos hq]
    unfold fragQuerySplit
    have hnf : '#' ∉ pth ++ '?' :: q := by
      intro hm
      rcases List.mem_append.mp hm with hm | hm
      · exact h1 hm
      · rcases List.mem_cons.mp hm with hm | hm
        · exact absurd hm.symm (by decide)
        · exact h3 hm
    rw [if_neg hnf]
    simp only []
    rw [if_pos (by exact List.mem_append_right _ (List.mem_cons_self _ _)),
      splitFirstOn_eq _ _ _ h2]

theorem take2_append_ne (x q' : PStr) (hx : x.take 2 ≠ pstr "//")
    (hq : q' = [] ∨ ∃ r, q' = '?' :: r) :
    (x ++ q').take 2 ≠ pstr "//" := by
  rcases hq with rfl | ⟨r, rfl⟩
  · simpa using hx
  · cases x with
    | nil =>
      intro he
      have h2 : (([] : PStr) ++ '?' :: r).take 2 = '?' :: r.take 1 := rfl
      rw [h2] at he
      exact absurd (List.cons_eq_cons.mp he).1 (by decide)
    | cons c xs =>
      cases xs with
      | nil =>
        intro he
        have h2 : (([c] : PStr) ++ '?' :: r).take 2 = [c, '?'] := rfl
        rw [h2] at he
        have h3 := (List.cons_eq_cons.mp he).2
        exact absurd (List.cons_eq_cons.mp h3).1 (by decide)
      | cons d ys =>
        intro he
        apply hx
        have h2 : ((c :: d :: ys) ++ '?' :: r).take 2 = [c, d] := rfl
        have h3 : (c :: d :: ys).take 2 = [c, d] := rfl
        rw [h2] at he
        rw [h3]
        exact he

theorem semi_recomb (S : PStr) :
    (if ((S.dropWhile (· ≠ ';')).drop 1) ≠ [] then
      S.takeWhile (· ≠ ';') ++ ';' :: ((S.dropWhile (· ≠ ';')).drop 1)
    else S.takeWhile (· ≠ ';')) ++
      (if ((S.dropWhile (· ≠ ';')).drop 1) ≠ [] then []
       else S.dropWhile (· ≠ ';')) = S := by
  by_cases h3 : (S.dropWhile (· ≠ ';')).drop 1 = []
  · rw [if_neg (not_not_intro h3), if_neg (not_not_intro h3)]
    exact List.takeWhile_append_dropWhile _ _
  · rw [if_pos h3, if_pos h3]
    have hS : ';' ∈ S := by
      by_contra hnot
      have hnil : S.dropWhile (· ≠ ';') = [] := by
        apply List.dropWhile_eq_nil_iff.mpr
        intro x hx
        simp only [decide_eq_true_eq]
        exact fun he => hnot (he ▸ hx)
      rw [hnil] at h3
      simp at h3
    obtain ⟨hdec, _⟩ := stop_decomp ';' S hS
    rw [List.append_nil]
    exact hdec.symm

theorem splitparams_recomb (x : PStr) :
    ∃ t, (if (splitparams x).2 ≠ [] then
      (splitparams x).1 ++ ';' :: (splitparams x).2
    else (splitparams x).1) ++ t = x := by
  by_cases h1 : '/' ∈ x
  · by_cases h2 : ';' ∈ (splitAtLastSlash x).2
    · have hsp : splitparams x =
          ((splitAtLastSlash x).1 ++ (splitAtLastSlash x).2.takeWhile (· ≠ ';'),
            ((splitAtLastSlash x).2.dropWhile (· ≠ ';')).drop 1) := by
        unfold splitparams
        rw [if_pos h1]
        simp only []
        rw [if_pos h2]
      obtain ⟨w, hw1, hw2, hw3⟩ := splitAtLastSlash_decomp x h1
      have hx2 : x = (splitAtLastSlash x).1 ++ (splitAtLastSlash x).2 := by
        rw [hw2]
        exact hw1
      refine ⟨(if (((splitAtLastSlash x).2.dropWhile (· ≠ ';')).drop 1) ≠ [] then []
        else (splitAtLastSlash x).2.dropWhile (· ≠ ';')), ?_⟩
      rw [hsp]
      simp only []
      have hsr := semi_recomb (splitAtLastSlash x).2
      by_cases h3 : (((splitAtLastSlash x).2.dropWhile (· ≠ ';')).drop 1) = []
      · rw [if_neg (not_not_intro h3), if_neg (not_not_intro h3)] at hsr ⊢
        rw [List.append_assoc, hsr]
        exact hx2.symm
      · rw [if_pos h3, if_pos h3] at hsr ⊢
        rw [List.append_assoc] at hsr
        rw [List.append_assoc, List.append_assoc, hsr]
        exact hx2.symm
    · have hsp : splitparams x = (x, []) := by
        unfold splitparams
        rw [if_pos h1]
        simp only []
        rw [if_neg h2]
      rw [hsp]
      exact ⟨[], by simp⟩
  · by_cases h2 : ';' ∈ x
    · have hsp : splitparams x =
          (x.takeWhile (· ≠ ';'), (x.dropWhile (· ≠ ';')).drop 1) := by
        unfold splitparams
        rw [if_neg h1, if_pos h2]
      refine ⟨(if ((x.dropWhile (· ≠ ';')).drop 1) ≠ [] then []
        else x.dropWhile (· ≠ ';')), ?_⟩
      rw [hsp]
      simp only []
      exact semi_recomb x
    · have hsp : splitparams x = (x, []) := by
        unfold splitparams
        rw [if_neg h1, if_neg h2]
      rw [hsp]
      exact ⟨[], by simp⟩

theorem urlparse_inv (u : PStr) (p : ParseRes) (h : urlparse u = some p) :
    ∃ s : SplitRes, urlsplitD u [] = some s ∧ p.scheme = s.scheme ∧
      p.netloc = s.netloc ∧ p.query = s.query ∧
      ∃ t, pathParams p ++ t = s.path := by
  unfold urlparse urlparseD at h
  cases hs : urlsplitD u [] with
  | none => rw [hs] at h; simp at h
  | some s =>
    rw [hs] at h
    simp only [Option.map_some', Option.some.injEq] at h
    refine ⟨s, rfl, ?_⟩
    by_cases hc : s.scheme ∈ usesParams ∧ ';' ∈ s.path
    · rw [if_pos hc] at h
      rw [← h]
      refine ⟨rfl, rfl, rfl, ?_⟩
      have hrec := splitparams_recomb s.path
      simpa [pathParams] using hrec
    · rw [if_neg hc] at h
      rw [← h]
      refine ⟨rfl, rfl, rfl, ⟨[], ?_⟩⟩
      simp [pathParams]

theorem fragQuerySplit_scheme (sc nc rest : PStr) :
    (fragQuerySplit sc nc rest).scheme = sc := rfl

theorem fragQuerySplit_netloc (sc nc rest : PStr) :
    (fragQuerySplit sc nc rest).netloc = nc := rfl

theorem urlsplitD_inv (u : PStr) (s : SplitRes) (h : urlsplitD u [] = some s) :
    (s.scheme = [] ∨ (s.scheme ≠ [] ∧ headAsciiAlpha s.scheme = true ∧
      s.scheme.all isSchemeChar = true ∧ pyLower s.scheme = s.scheme)) ∧
    (∀ ch ∈ s.netloc, notNetlocDelim ch = true ∧
      ¬(ch = Char.ofNat 9 ∨ ch = Char.ofNat 13 ∨ ch = Char.ofNat 10)) ∧
    ¬(('[' ∈ s.netloc ∧ ']' ∉ s.netloc) ∨ (']' ∈ s.netloc ∧ '[' ∉ s.netloc)) ∧
    '#' ∉ s.path ∧ '?' ∉ s.path ∧
    (∀ ch ∈ s.path, ¬(ch = Char.ofNat 9 ∨ ch = Char.ofNat 13 ∨ ch = Char.ofNat 10)) ∧
    (∀ ch ∈ s.query, ch ≠ '#' ∧
      ¬(ch = Char.ofNat 9 ∨ ch = Char.ofNat 13 ∨ ch = Char.ofNat 10)) ∧
    (s.netloc ≠ [] → s.path = [] ∨ s.path.take 1 = pstr "/") ∧
    (s.scheme = [] → s.netloc = [] →
      (s.path.take 1 = pstr "/" ∨ ∃ t, s.path ++ t = removeUnsafe u)) ∧
    (s.scheme = [] →
      ':' ∉ removeUnsafe u ∨
        ¬((removeUnsafe u).takeWhile (· ≠ ':') ≠ [] ∧
          headAsciiAlpha ((removeUnsafe u).takeWhile (· ≠ ':')) = true ∧
          ((removeUnsafe u).takeWhile (· ≠ ':')).all isSchemeChar = true)) := by
  obtain ⟨hcase, hsub2⟩ := schemeSplit_inv (removeUnsafe u)
  unfold urlsplitD at h
  rw [show removeUnsafe ([] : PStr) = [] from rfl] at h
  simp only [] at h
  set SCH := (schemeSplit (removeUnsafe u) []).1 with hSCH
  set U2 := (schemeSplit (removeUnsafe u) []).2 with hU2
  have hSCHfact : SCH = [] → (':' ∉ removeUnsafe u ∨
      ¬((removeUnsafe u).takeWhile (· ≠ ':') ≠ [] ∧
        headAsciiAlpha ((removeUnsafe u).takeWhile (· ≠ ':')) = true ∧
        ((removeUnsafe u).takeWhile (· ≠ ':')).all isSchemeChar = true)) := by
    intro h0
    rcases hcase with ⟨heq, hF6⟩ | hval
    · exact hF6
    · exact absurd h0 hval.1
  have hSCHgood : SCH = [] ∨ (SCH ≠ [] ∧ headAsciiAlpha SCH = true ∧
      SCH.all isSchemeChar = true ∧ pyLower SCH = SCH) := by
    rcases hcase with ⟨heq, hF6⟩ | hval
    · left
      rw [hSCH, heq]
    · exact Or.inr hval
  have hU2ru : SCH = [] → U2 = removeUnsafe u := by
    intro h0
    rcases hcase with ⟨heq, hF6⟩ | hval
    · rw [hU2, heq]
    · exact absurd h0 hval.1
  by_cases hsl : U2.take 2 = pstr "//"
  · rw [if_pos hsl] at h
    by_cases hbr : ('[' ∈ (U2.drop 2).takeWhile notNetlocDelim ∧
          ']' ∉ (U2.drop 2).takeWhile notNetlocDelim) ∨
        (']' ∈ (U2.drop 2).takeWhile notNetlocDelim ∧
          '[' ∉ (U2.drop 2).takeWhile notNetlocDelim)
    · rw [if_pos hbr] at h
      exact absurd h (by simp)
    · rw [if_neg hbr] at h
      have hs := Option.some.inj h
      obtain ⟨hPpre, hPh, hPq, hQf⟩ := fragQuerySplit_facts SCH
        ((U2.drop 2).takeWhile notNetlocDelim)
        ((U2.drop 2).dropWhile notNetlocDelim)
      have hmemREST : ∀ ch ∈ (U2.drop 2).dropWhile notNetlocDelim,
          ch ∈ removeUnsafe u := by
        intro ch hch
        apply hsub2
        apply List.drop_subset 2 U2
        rw [← List.takeWhile_append_dropWhile notNetlocDelim (U2.drop 2)]
        exact List.mem_append_right _ hch
      have hre : (U2.drop 2).dropWhile notNetlocDelim = [] ∨
          ∃ r0 rt, (U2.drop 2).dropWhile notNetlocDelim = r0 :: rt ∧
            notNetlocDelim r0 = false := by
        cases hr : (U2.drop 2).dropWhile notNetlocDelim with
        | nil => exact Or.inl rfl
        | cons r0 rt =>
          refine Or.inr ⟨r0, rt, rfl, ?_⟩
          have hh := List.head_dropWhile_not notNetlocDelim (U2.drop 2)
          rw [hr] at hh
          simpa using hh (by simp)
      have hshape := path_shape _ _ hPpre hPh hPq hre
      rw [← hs]
      rw [fragQuerySplit_scheme, fragQuerySplit_netloc]
      refine ⟨hSCHgood, ?_, hbr, hPh, hPq, ?_, ?_, fun _ => hshape, ?_, hSCHfact⟩
      · intro ch hch
        have hnd := List.mem_takeWhile_imp hch
        have hmem : ch ∈ removeUnsafe u := by
          apply hsub2
          apply List.drop_subset 2 U2
          rw [← List.takeWhile_append_dropWhile notNetlocDelim (U2.drop 2)]
          exact List.mem_append_left _ hch
        exact ⟨hnd, (mem_removeUnsafe u ch hmem).2⟩
      · intro ch hch
        exact (mem_removeUnsafe u ch
          (hmemREST ch (mem_of_prefix_part _ _ hPpre ch hch))).2
      · intro ch hch
        obtain ⟨hin, hne⟩ := hQf ch hch
        exact ⟨hne, (mem_removeUnsafe u ch (hmemREST ch hin)).2⟩
      · intro _ _
        rcases hshape with hp | hp
        · exact Or.inr ⟨removeUnsafe u, by rw [hp]; simp⟩
        · exact Or.inl hp
  · rw [if_neg hsl] at h
    have hs := Option.some.inj h
    obtain ⟨hPpre, hPh, hPq, hQf⟩ := fragQuerySplit_facts SCH [] U2
    have hmemU2 : ∀ ch ∈ U2, ch ∈ removeUnsafe u := by
      intro ch hch
      exact hsub2 ch hch
    rw [← hs]
    rw [fragQuerySplit_scheme, fragQuerySplit_netloc]
    refine ⟨hSCHgood, by simp, by simp, hPh, hPq, ?_, ?_, ?_, ?_, hSCHfact⟩
    · intro ch hch
      exact (mem_removeUnsafe u ch
        (hmemU2 ch (mem_of_prefix_part _ _ hPpre ch hch))).2
    · intro ch hch
      obtain ⟨hin, hne⟩ := hQf ch hch
      exact ⟨hne, (mem_removeUnsafe u ch (hmemU2 ch hin)).2⟩
    · intro habs
      exact absurd rfl habs
    · intro h0 _
      right
      obtain ⟨t, ht⟩ := hPpre
      exact ⟨t, by rw [ht]; exact hU2ru h0⟩

theorem schemeSplit_slash (crest : PStr) :
    schemeSplit ('/' :: crest) [] = ([], '/' :: crest) := by
  apply schemeSplit_invalid
  rintro ⟨h1, h2, h3⟩
  rw [List.takeWhile_cons_of_pos (by decide)] at h2
  have h4 : headAsciiAlpha ('/' :: crest.takeWhile (· ≠ ':')) = false := rfl
  rw [h4] at h2
  exact absurd h2 (by decide)

theorem pyLower_netloc_facts (nl : PStr)
    (h : ∀ ch ∈ nl, notNetlocDelim ch = true ∧
      ¬(ch = Char.ofNat 9 ∨ ch = Char.ofNat 13 ∨ ch = Char.ofNat 10)) :
    ∀ ch ∈ pyLower nl, notNetlocDelim ch = true ∧
      ¬(ch = Char.ofNat 9 ∨ ch = Char.ofNat 13 ∨ ch = Char.ofNat 10) := by
  intro ch hch
  obtain ⟨c₀, hc₀, rfl⟩ := mem_pyLower _ ch hch
  obtain ⟨hnd, hnu⟩ := h c₀ hc₀
  have hnd' : ¬(c₀ = '/' ∨ c₀ = '?' ∨ c₀ = '#') := by
    simpa [notNetlocDelim] using hnd
  constructor
  · have g1 : Char.toLower c₀ ≠ '/' :=
      toLower_preserve_not c₀ '/' (by decide) (fun he => hnd' (Or.inl he))
    have g2 : Char.toLower c₀ ≠ '?' :=
      toLower_preserve_not c₀ '?' (by decide) (fun he => hnd' (Or.inr (Or.inl he)))
    have g3 : Char.toLower c₀ ≠ '#' :=
      toLower_preserve_not c₀ '#' (by decide) (fun he => hnd' (Or.inr (Or.inr he)))
    simp [notNetlocDelim, g1, g2, g3]
  · have g1 : Char.toLower c₀ ≠ Char.ofNat 9 :=
      toLower_preserve_not c₀ _ (by decide) (fun he => hnu (Or.inl he))
    have g2 : Char.toLower c₀ ≠ Char.ofNat 13 :=
      toLower_preserve_not c₀ _ (by decide) (fun he => hnu (Or.inr (Or.inl he)))
    have g3 : Char.toLower c₀ ≠ Char.ofNat 10 :=
      toLower_preserve_not c₀ _ (by decide) (fun he => hnu (Or.inr (Or.inr he)))
    simp [g1, g2, g3]

theorem unsafe_forms (ch : Char) (h : ¬(ch = '\t' ∨ ch = '\r' ∨ ch = '\n')) :
    ¬(ch = Char.ofNat 9 ∨ ch = Char.ofNat 13 ∨ ch = Char.ofNat 10) := by
  intro h2
  apply h
  rcases h2 with h2 | h2 | h2
  · exact Or.inl (h2.trans (by decide))
  · exact Or.inr (Or.inl (h2.trans (by decide)))
  · exact Or.inr (Or.inr (h2.trans (by decide)))

theorem take1_slash (x : PStr) (h : x.take 1 = pstr "/") : ∃ r, x = '/' :: r := by
  cases hx : x with
  | nil => rw [hx] at h; exact absurd h (by decide)
  | cons a r =>
    rw [hx] at h
    have h2 : (a :: r).take 1 = [a] := rfl
    rw [h2] at h
    have h3 : a = '/' :=
      (List.cons_eq_cons.mp (h.trans (show pstr "/" = ['/'] from rfl))).1
    exact ⟨r, by rw [h3]⟩

theorem c_unsafe_free (sch URL1 q : PStr)
    (hsch : ∀ ch ∈ sch, ¬(ch = Char.ofNat 9 ∨ ch = Char.ofNat 13 ∨ ch = Char.ofNat 10))
    (hurl : ∀ ch ∈ URL1, ¬(ch = Char.ofNat 9 ∨ ch = Char.ofNat 13 ∨ ch = Char.ofNat 10))
    (hq : ∀ ch ∈ q, ¬(ch = Char.ofNat 9 ∨ ch = Char.ofNat 13 ∨ ch = Char.ofNat 10)) :
    ∀ ch ∈ (if sch ≠ [] then sch ++ ':' :: URL1 else URL1) ++
      (if q ≠ [] then '?' :: q else []),
      ¬(ch = Char.ofNat 9 ∨ ch = Char.ofNat 13 ∨ ch = Char.ofNat 10) := by
  intro ch hch
  rcases List.mem_append.mp hch with hm | hm
  · by_cases h1 : sch ≠ []
    · rw [if_pos h1] at hm
      rcases List.mem_append.mp hm with hm2 | hm2
      · exact hsch ch hm2
      · rcases List.mem_cons.mp hm2 with rfl | hm3
        · decide
        · exact hurl ch hm3
    · rw [if_neg h1] at hm
      exact hurl ch hm
  · by_cases h2 : q ≠ []
    · rw [if_pos h2] at hm
      rcases List.mem_cons.mp hm with rfl | hm3
      · decide
      · exact hq ch hm3
    · rw [if_neg h2] at hm
      simp at hm

/-- C4, amended: under the two authority-shift side conditions, `normalize_url`
round-trips: re-splitting its output yields the original scheme, the
lowercased netloc, the path (with params) verbatim, the query verbatim,
and an empty fragment. -/
theorem C4_amended (raw base c u2 : PStr) (p : ParseRes)
    (hn : normalize_url raw base = some c)
    (hr : resolve_url raw base = some u2)
    (hp : urlparse u2 = some p)
    (hA : p.netloc = [] → (pathParams p).take 2 ≠ pstr "//")
    (hB : p.netloc = [] → p.scheme ≠ [] → p.scheme ∈ usesNetloc →
      pathParams p = [] ∨ (pathParams p).take 1 = pstr "/") :
    urlsplitD c [] = some ⟨p.scheme, pyLower p.netloc, pathParams p, p.query, []⟩ := by
  have hc : urlunsplit p.scheme (pyLower p.netloc) (pathParams p) p.query [] = c := by
    unfold normalize_url at hn
    rw [hr] at hn
    simp only [] at hn
    rw [hp] at hn
    simp only [] at hn
    exact Option.some.inj hn
  obtain ⟨s, hsplit, hps, hpn, hpq, t1, hpt⟩ := urlparse_inv u2 p hp
  obtain ⟨hF1, hF2, hFbr, hF3h, hF3q, hF3u, hFqf, hF4, hF5, hF6⟩ :=
    urlsplitD_inv u2 s hsplit
  have hppPre : ∃ t, pathParams p ++ t = s.path := ⟨t1, hpt⟩
  have hpp_h : '#' ∉ pathParams p :=
    fun hm => hF3h (mem_of_prefix_part _ _ hppPre _ hm)
  have hpp_q : '?' ∉ pathParams p :=
    fun hm => hF3q (mem_of_prefix_part _ _ hppPre _ hm)
  have hpp_unsafe : ∀ ch ∈ pathParams p,
      ¬(ch = Char.ofNat 9 ∨ ch = Char.ofNat 13 ∨ ch = Char.ofNat 10) :=
    fun ch hm => hF3u ch (mem_of_prefix_part _ _ hppPre ch hm)
  have hq_h : '#' ∉ p.query := fun hm => (hFqf '#' (hpq ▸ hm)).1 rfl
  have hq_unsafe : ∀ ch ∈ p.query,
      ¬(ch = Char.ofNat 9 ∨ ch = Char.ofNat 13 ∨ ch = Char.ofNat 10) :=
    fun ch hm => (hFqf ch (hpq ▸ hm)).2
  have hNL := pyLower_netloc_facts p.netloc (fun ch hm => hF2 ch (hpn ▸ hm))
  have hbrNL : ¬(('[' ∈ pyLower p.netloc ∧ ']' ∉ pyLower p.netloc) ∨
      (']' ∈ pyLower p.netloc ∧ '[' ∉ pyLower p.netloc)) := by
    rw [mem_pyLower_low p.netloc '[' (by decide),
      mem_pyLower_low p.netloc ']' (by decide), hpn]
    exact hFbr
  have hschemeGood : p.scheme = [] ∨ (p.scheme ≠ [] ∧
      headAsciiAlpha p.scheme = true ∧ p.scheme.all isSchemeChar = true ∧
      pyLower p.scheme = p.scheme) := by
    rw [hps]
    exact hF1
  have hschU : ∀ ch ∈ p.scheme,
      ¬(ch = Char.ofNat 9 ∨ ch = Char.ofNat 13 ∨ ch = Char.ofNat 10) := by
    intro ch hm
    rcases hschemeGood with h0 | hval
    · rw [h0] at hm; simp at hm
    · exact unsafe_forms ch
        (schemeChar_facts ch (List.all_eq_true.mp hval.2.2.1 ch hm)).2.2.2.2
  by_cases hcond : pyLower p.netloc ≠ [] ∨ (p.scheme ≠ [] ∧
      p.scheme ∈ usesNetloc ∧ (pathParams p).take 2 ≠ pstr "//")
  · -- authority branch of urlunsplit
    have hshapePP : pathParams p = [] ∨ (pathParams p).take 1 = pstr "/" := by
      by_cases hnl : pyLower p.netloc = []
      · have hnl' : p.netloc = [] := (pyLower_eq_nil _).mp hnl
        rcases hcond with hc1 | ⟨hs1, hs2, hs3⟩
        · exact absurd hnl hc1
        · exact hB hnl' hs1 hs2
      · have hnl' : p.netloc ≠ [] := fun he => hnl (by rw [he]; rfl)
        exact prefix_head_shape _ _ hppPre (hF4 (by rw [← hpn]; exact hnl'))
    have hX : (if pathParams p ≠ [] ∧ (pathParams p).take 1 ≠ pstr "/" then
        '/' :: pathParams p else pathParams p) = pathParams p := by
      rcases hshapePP with h0 | h1
      · rw [if_neg (fun hand => hand.1 h0)]
      · rw [if_neg (fun hand => hand.2 h1)]
    have hc2 : c = (if p.scheme ≠ [] then
        p.scheme ++ ':' :: (pstr "//" ++ pyLower p.netloc ++ pathParams p)
        else pstr "//" ++ pyLower p.netloc ++ pathParams p) ++
        (if p.query ≠ [] then '?' :: p.query else []) := by
      rw [← hc]
      unfold urlunsplit
      simp only []
      rw [if_neg (show ¬(([] : PStr) ≠ []) from by simp), if_pos hcond, hX]
      by_cases hq : p.query ≠ []
      · rw [if_pos hq, if_pos hq]
      · rw [if_neg hq, if_neg hq, List.append_nil]
    have hURL1 : ∀ ch ∈ pstr "//" ++ pyLower p.netloc ++ pathParams p,
        ¬(ch = Char.ofNat 9 ∨ ch = Char.ofNat 13 ∨ ch = Char.ofNat 10) := by
      intro ch hm
      rcases List.mem_append.mp hm with hm1 | hm1
      · rcases List.mem_append.mp hm1 with hm2 | hm2
        · have h2s : pstr "//" = ['/', '/'] := rfl
          rw [h2s] at hm2
          rcases List.mem_cons.mp hm2 with rfl | hm3
          · decide
          · rcases List.mem_cons.mp hm3 with rfl | hm4
            · decide
            · simp at hm4
        · exact (hNL ch hm2).2
      · exact hpp_unsafe ch hm1
    have hru : removeUnsafe c = c := by
      apply removeUnsafe_eq_self
      rw [hc2]
      exact c_unsafe_free p.scheme _ p.query hschU hURL1 hq_unsafe
    have hss : schemeSplit c [] = (p.scheme,
        '/' :: '/' :: (pyLower p.netloc ++ (pathParams p ++
          (if p.query ≠ [] then '?' :: p.query else [])))) := by
      by_cases hsch : p.scheme = []
      · have hcs : c = '/' :: ('/' :: (pyLower p.netloc ++ (pathParams p ++
            (if p.query ≠ [] then '?' :: p.query else [])))) := by
          rw [hc2, if_neg (not_not_intro hsch)]
          rw [show pstr "//" = ['/', '/'] from rfl]
          simp [List.append_assoc]
        rw [hcs, hsch]
        exact schemeSplit_slash _
      · have hvalid := hschemeGood.resolve_left hsch
        have hnocolon : ':' ∉ p.scheme := by
          intro hm
          exact (schemeChar_facts ':'
            (List.all_eq_true.mp hvalid.2.2.1 ':' hm)).1 rfl
        have hcs : c = p.scheme ++ ':' :: ('/' :: '/' :: (pyLower p.netloc ++
            (pathParams p ++ (if p.query ≠ [] then '?' :: p.query else [])))) := by
          rw [hc2, if_pos hsch]
          rw [show pstr "//" = ['/', '/'] from rfl]
          simp [List.append_assoc]
        rw [hcs]
        rw [schemeSplit_colon_valid p.scheme _ [] hnocolon hsch hvalid.2.1
          hvalid.2.2.1, hvalid.2.2.2]
    have hXshape : (pathParams p ++ (if p.query ≠ [] then '?' :: p.query else [])) = [] ∨
        ∃ x0 xr, (pathParams p ++ (if p.query ≠ [] then '?' :: p.query else [])) =
          x0 :: xr ∧ notNetlocDelim x0 = false := by
      rcases hshapePP with hPP0 | hPP1
      · rw [hPP0, List.nil_append]
        by_cases hq : p.query ≠ []
        · rw [if_pos hq]
          exact Or.inr ⟨'?', p.query, rfl, by decide⟩
        · rw [if_neg hq]
          exact Or.inl rfl
      · obtain ⟨r, hr⟩ := take1_slash _ hPP1
        rw [hr, List.cons_append]
        exact Or.inr ⟨'/', _, rfl, by decide⟩
    obtain ⟨hTW, hDW⟩ := netloc_extract (pyLower p.netloc)
      (pathParams p ++ (if p.query ≠ [] then '?' :: p.query else []))
      (fun ch hch => (hNL ch hch).1) hXshape
    unfold urlsplitD
    rw [show removeUnsafe ([] : PStr) = [] from rfl, hru]
    simp only []
    rw [hss]
    simp only []
    rw [if_pos (show ('/' :: '/' :: (pyLower p.netloc ++ (pathParams p ++
        (if p.query ≠ [] then '?' :: p.query else [])))).take 2 = pstr "//" from rfl)]
    rw [show ('/' :: '/' :: (pyLower p.netloc ++ (pathParams p ++
        (if p.query ≠ [] then '?' :: p.query else [])))).drop 2 =
        pyLower p.netloc ++ (pathParams p ++
        (if p.query ≠ [] then '?' :: p.query else [])) from rfl]
    rw [hTW, hDW]
    rw [if_neg hbrNL]
    rw [fragQuerySplit_build p.scheme (pyLower p.netloc) (pathParams p) p.query
      hpp_h hpp_q hq_h]
  · -- no authority in the rebuilt URL
    have hnl : pyLower p.netloc = [] := by
      by_contra hne
      exact hcond (Or.inl hne)
    have hnl' : p.netloc = [] := (pyLower_eq_nil _).mp hnl
    have hc2 : c = (if p.scheme ≠ [] then p.scheme ++ ':' :: pathParams p
        else pathParams p) ++ (if p.query ≠ [] then '?' :: p.query else []) := by
      rw [← hc]
      unfold urlunsplit
      simp only []
      rw [if_neg (show ¬(([] : PStr) ≠ []) from by simp), if_neg hcond]
      by_cases hq : p.query ≠ []
      · rw [if_pos hq, if_pos hq]
      · rw [if_neg hq, if_neg hq, List.append_nil]
    have hru : removeUnsafe c = c := by
      apply removeUnsafe_eq_self
      rw [hc2]
      exact c_unsafe_free p.scheme _ p.query hschU hpp_unsafe hq_unsafe
    have hT2 : ¬((pathParams p ++ (if p.query ≠ [] then '?' :: p.query else [])).take 2 =
        pstr "//") := by
      apply take2_append_ne _ _ (hA hnl')
      by_cases hq : p.query ≠ []
      · rw [if_pos hq]
        exact Or.inr ⟨p.query, rfl⟩
      · rw [if_neg hq]
        exact Or.inl rfl
    have hss : schemeSplit c [] = (p.scheme, pathParams p ++
        (if p.query ≠ [] then '?' :: p.query else [])) := by
      by_cases hsch : p.scheme = []
      · have hcs : c = pathParams p ++
            (if p.query ≠ [] then '?' :: p.query else []) := by
          rw [hc2, if_neg (not_not_intro hsch)]
        rw [hcs, hsch]
        by_cases hcol : ':' ∈ pathParams p ++
            (if p.query ≠ [] then '?' :: p.query else [])
        · by_cases hcolPP : ':' ∈ pathParams p
          · by_cases hsl1 : (pathParams p).take 1 = pstr "/"
            · obtain ⟨r, hr⟩ := take1_slash _ hsl1
              rw [hr, List.cons_append]
              exact schemeSplit_slash _
            · have hsp1 := hF5 (by rw [← hps]; exact hsch)
                (by rw [← hpn]; exact hnl')
              rcases hsp1 with hsp1 | ⟨t2, ht2⟩
              · rcases prefix_head_shape _ _ hppPre (Or.inr hsp1) with h0 | h1
                · rw [h0] at hcolPP
                  simp at hcolPP
                · exact absurd h1 hsl1
              · obtain ⟨t3, ht3⟩ : ∃ t3, pathParams p ++ t3 = removeUnsafe u2 :=
                  ⟨t1 ++ t2, by rw [← List.append_assoc, hpt, ht2]⟩
                have hwit : ∃ x ∈ pathParams p,
                    (fun c => decide (c ≠ ':')) x = false := ⟨':', hcolPP, by simp⟩
                have he1 := (takeWhile_append_stop (fun c => decide (c ≠ ':'))
                  (pathParams p) (if p.query ≠ [] then '?' :: p.query else []) hwit).1
                have he2 := (takeWhile_append_stop (fun c => decide (c ≠ ':'))
                  (pathParams p) t3 hwit).1
                rcases hF6 (by rw [← hps]; exact hsch) with hnc | hinv
                · exact absurd
                    (by rw [← ht3]; exact List.mem_append_left _ hcolPP) hnc
                · apply schemeSplit_invalid
                  rw [he1]
                  rw [← ht3, he2] at hinv
                  exact hinv
          · have hmTQ : ':' ∈ (if p.query ≠ [] then '?' :: p.query else []) :=
              (List.mem_append.mp hcol).resolve_left hcolPP
            have hq : p.query ≠ [] := by
              intro hq0
              rw [if_neg (not_not_intro hq0)] at hmTQ
              simp at hmTQ
            apply schemeSplit_invalid
            rintro ⟨h1, h2, h3⟩
            have hqall : ∀ a ∈ pathParams p,
                (fun c => decide (c ≠ ':')) a = true := by
              intro a ha
              simp only [decide_eq_true_eq]
              exact fun he => hcolPP (he ▸ ha)
            rw [if_pos hq] at h3
            rw [takeWhile_append_all _ _ _ hqall,
              List.takeWhile_cons_of_pos (by decide)] at h3
            have h4 := List.all_eq_true.mp h3 '?'
              (List.mem_append_right _ (List.mem_cons_self _ _))
            exact absurd h4 (by decide)
        · exact schemeSplit_no_colon _ [] hcol
      · have hvalid := hschemeGood.resolve_left hsch
        have hnocolon : ':' ∉ p.scheme := by
          intro hm
          exact (schemeChar_facts ':'
            (List.all_eq_true.mp hvalid.2.2.1 ':' hm)).1 rfl
        have hcs : c = p.scheme ++ ':' :: (pathParams p ++
            (if p.query ≠ [] then '?' :: p.query else [])) := by
          rw [hc2, if_pos hsch]
          simp [List.append_assoc]
        rw [hcs]
        rw [schemeSplit_colon_valid p.scheme _ [] hnocolon hsch hvalid.2.1
          hvalid.2.2.1, hvalid.2.2.2]
    unfold urlsplitD
    rw [show removeUnsafe ([] : PStr) = [] from rfl, hru]
    simp only []
    rw [hss]
    simp only []
    rw [if_neg hT2]
    rw [fragQuerySplit_build p.scheme [] (pathParams p) p.query hpp_h hpp_q hq_h,
      hnl]

/-- C4, counterexample. `normalize_url` does NOT collapse runs of slashes
in the path and does NOT replace an empty path by `/`: the double slash in
`http://a.com//b` survives, and `http://a.com` keeps its empty path. -/
theorem C4_counterexample :
    normalize_url (pstr "http://a.com//b") [] = some (pstr "http://a.com//b") ∧
    normalize_url (pstr "http://a.com") [] = some (pstr "http://a.com") := by
  decide

/-- C4, witness for the amended theorem. -/
theorem C4_amended_witness :
    urlsplitD (pstr "http://ex.com/a//b?q=1") [] =
      some ⟨pstr "http", pstr "ex.com", pstr "/a//b", pstr "q=1", []⟩ := by
  have h := C4_amended (pstr "http://EX.com/a//b?q=1#f") []
    (pstr "http://ex.com/a//b?q=1") (pstr "http://EX.com/a//b?q=1#f")
    ⟨pstr "http", pstr "EX.com", pstr "/a//b", [], pstr "q=1", pstr "f"⟩
    (by decide) (by decide) (by decide) (by decide) (by decide)
  rw [show pyLower (pstr "EX.com") = pstr "ex.com" from by decide,
    show pathParams (⟨pstr "http", pstr "EX.com", pstr "/a//b", [],
      pstr "q=1", pstr "f"⟩ : ParseRes) = pstr "/a//b" from by decide] at h
  exact h

end ReconMapper
